import Mathlib

/-!
# mem-cpu-monitor (sp-memusage): sampling and delta computation

Shallow embedding of `src/mem-cpu-monitor.c`.

Conventions of the embedding.

* A C string is a `List Char` holding the characters before the terminating
  NUL; a pointer into a string is the suffix that starts at the pointee, so
  `p + n` is `p.drop n`.
* `size_t` and `unsigned long` have the same width `w` on Linux (32 on the
  ILP32 targets the tool was written for, 64 on LP64); every function that
  does `size_t` arithmetic takes `w` and reduces modulo `2 ^ w`.
* `unsigned` is 32 bits wide.
* A pseudo-file is `Option (List (List Char))`: `none` when `fopen` fails,
  otherwise the lines in the order `getline` yields them, each as the C
  string left in `dynbuf` (its newline included when the file has one).
* Loops whose trip count depends on the input (`scan_ticks`, `sum_ticks`)
  take a fuel argument; `scan_ticks_fuel` and `sum_ticks_fuel` show that the
  fuel the callers pass is never exhausted.
* `float` is IEEE 754 binary32 with round-to-nearest, ties to even
  (`round_f32`), every operation rounded to that format; the values are kept
  as rationals, the representable ones being fixed points of `round_f32`.
* Where the code reads bytes of a `getline` buffer behind the terminating NUL
  of the line, those bytes are a parameter (`stale`, `slack`).

The first part of the file holds the definitions: the libc primitives, the
functions of the program, and the vocabulary the statements use.  The second
part holds the lemmas and, last, one theorem per claim.
-/

namespace MemCpuMonitor

/-! ## libc string and number primitives -/

/-- The horizontal tab, `'\t'`. -/
def TAB : Char := Char.ofNat 9

/-- The line feed, `'\n'`. -/
def LF : Char := Char.ofNat 10

/-- The NUL byte. -/
def NUL : Char := Char.ofNat 0

/-- The C string held in a buffer: the bytes before the first NUL. -/
def cstr : List Char → List Char
  | [] => []
  | c :: cs => if c = NUL then [] else c :: cstr cs

/-- C `isspace` in the C locale: space, `\t`, `\n`, `\v`, `\f`, `\r`. -/
def isspace (c : Char) : Bool :=
  c = ' ' || (9 ≤ c.toNat && c.toNat ≤ 13)

/-- C `isdigit`. -/
def isdigit (c : Char) : Bool :=
  48 ≤ c.toNat && c.toNat ≤ 57

/-- Value of a decimal digit character. -/
def digit_value (c : Char) : Nat := c.toNat - 48

/-- Skip leading white space, as `strtoul` and the `%zu` directive do. -/
def skip_space : List Char → List Char
  | [] => []
  | c :: cs => if isspace c then skip_space cs else c :: cs

/-- Consume the longest run of decimal digits, accumulating its value;
returns the value and the unconsumed rest. -/
def scan_digits (acc : Nat) : List Char → Nat × List Char
  | [] => (acc, [])
  | c :: cs => if isdigit c then scan_digits (acc * 10 + digit_value c) cs else (acc, c :: cs)

/-- What one call `strtoul(nptr, &end, 10)` reports. -/
structure strtoul_result where
  /-- The returned value. -/
  value : Nat
  /-- The string `*endptr` points to afterwards. -/
  endptr : List Char
  /-- No conversion was performed: `end == nptr`. -/
  noconv : Bool
  /-- The call set `errno` to `ERANGE`. -/
  erange : Bool
deriving DecidableEq, Repr

/-- Optional sign of a subject sequence: whether it is `-`, and the rest. -/
def scan_sign : List Char → Bool × List Char
  | [] => (false, [])
  | c :: cs => if c = '-' then (true, cs) else if c = '+' then (false, cs) else (false, c :: cs)

/-- `strtoul(nptr, &end, 10)` for a `w`-bit `unsigned long` (glibc): skip
white space, take an optional sign and the longest run of digits.  Without a
digit nothing is converted (value 0, `end == nptr`).  A magnitude that does
not fit yields `ULONG_MAX` and `ERANGE`; a leading `-` negates in the
unsigned type. -/
def strtoul (w : Nat) (nptr : List Char) : strtoul_result :=
  let s := scan_sign (skip_space nptr)
  match s.2 with
  | [] => ⟨0, nptr, true, false⟩
  | c :: cs =>
    if isdigit c then
      let r := scan_digits 0 (c :: cs)
      if 2 ^ w ≤ r.1 then ⟨2 ^ w - 1, r.2, false, true⟩
      else ⟨if s.1 then (2 ^ w - r.1) % 2 ^ w else r.1, r.2, false, false⟩
    else ⟨0, nptr, true, false⟩

/-- `sscanf(p, "%zu", &x) == 1` with the value stored, or `none` when the
directive does not match (the variable is then left as it was).  glibc
converts with the `strtoul` machinery, so the value is the one `strtoul`
returns. -/
def sscanf_zu (w : Nat) (p : List Char) : Option Nat :=
  let r := strtoul w p
  if r.noconv then none else some r.value

/-- `strchr(s, c)`: the suffix starting at the first `c`, or `none` (NULL). -/
def strchr : List Char → Char → Option (List Char)
  | [], _ => none
  | x :: xs, c => if x = c then some (x :: xs) else strchr xs c

/-- `strrchr(s, c)`: the suffix starting at the last `c`, or `none` (NULL). -/
def strrchr : List Char → Char → Option (List Char)
  | [], _ => none
  | x :: xs, c =>
    match strrchr xs c with
    | some r => some r
    | none => if x = c then some (x :: xs) else none

/-- Source `begins_with(s1, s2)`: does `s1` begin with `s2`? -/
def begins_with : List Char → List Char → Bool
  | _, [] => true
  | [], _ :: _ => false
  | a :: s1, b :: s2 => if a ≠ b then false else begins_with s1 s2

/-- `strstr(haystack, needle) != NULL`. -/
def strstr_found : List Char → List Char → Bool
  | [], needle => needle.isEmpty
  | c :: cs, needle => begins_with (c :: cs) needle || strstr_found cs needle

/-! ## The monitored process record -/

/-- Source `monitored_process_t`. -/
structure monitored_process_t where
  pid : Nat
  name : Option (List Char)
  smaps_path : List Char
  stat_path : List Char
  mem_clean : Nat
  mem_dirty : Nat
  mem_change : Int
  cputicks_total : Nat
  cputicks_change : Nat
deriving DecidableEq, Repr

/-- A pseudo-file as the program sees it: `none` when it cannot be opened. -/
abbrev Source := Option (List (List Char))

/-! ## update_process_cpustats -/

/-- The `while ((p = strchr(p+1, ' ')) != NULL)` loop of
`update_process_cpustats`, entered with pointer `p`, counter `idx` and the
current `utime`; the result is `(utime, stime)` as they stand at label
`done`.  `stime` is still 0 on every path but the one that reads it.  The
fuel bounds the iterations; each one moves `p` forward, so `p.length + 1`
is enough (`scan_ticks_fuel`). -/
def scan_ticks (w : Nat) : Nat → List Char → Nat → Nat → Nat × Nat
  | 0, _, _, utime => (utime, 0)
  | fuel + 1, p, idx, utime =>
    match strchr (p.drop 1) ' ' with
    | none => (utime, 0)
    | some q =>
      if idx + 1 = 13 then
        match sscanf_zu w q with
        | none => (utime, 0)
        | some v => scan_ticks w fuel q (idx + 1) v
      else if idx + 1 = 14 then
        match sscanf_zu w q with
        | none => (utime, 0)
        | some v => (utime, v)
      else scan_ticks w fuel q (idx + 1) utime

/-- The reading part of `update_process_cpustats`, up to label `done`:
`(utime, stime)` from the stat pseudo-file.  Only the first line is read.
After `++p` the pointer is on the character that follows the last `)`.  When
that `)` ends the line, the pointer is on the terminating NUL and `p + 1` is
behind it: the loop then searches and parses `stale`, the bytes the shared
`dynbuf` holds behind the terminator (what earlier, longer lines left there),
up to their first NUL. -/
def read_cpustats (w : Nat) (stat : Source) (stale : List Char) : Nat × Nat :=
  match stat with
  | none => (0, 0)
  | some [] => (0, 0)
  | some (dynbuf :: _) =>
    match strrchr dynbuf ')' with
    | none => (0, 0)
    | some p =>
      if p.drop 1 = [] then scan_ticks w (stale.length + 2) (NUL :: cstr stale) 2 0
      else scan_ticks w (dynbuf.length + 1) (p.drop 1) 2 0

/-- Source `update_process_cpustats`, with the content of
`process->stat_path` passed as `stat` and the bytes of `dynbuf` behind the
line's terminating NUL as `stale`.  The sum and the difference are `size_t`
operations. -/
def update_process_cpustats (w : Nat) (stat : Source) (stale : List Char)
    (process : monitored_process_t) : monitored_process_t :=
  let t := read_cpustats w stat stale
  let utime := t.1
  let stime := t.2
  let sum := (stime + utime) % 2 ^ w
  { process with
    cputicks_change :=
      if process.cputicks_total ≤ sum then (sum + 2 ^ w - process.cputicks_total) % 2 ^ w
      else 0
    cputicks_total := sum }

/-! ## cpu_usage -/

/-- Rounding of a rational to the nearest integer, ties to the even one. -/
def round_half_even (q : ℚ) : ℤ :=
  if q - ⌊q⌋ < 1 / 2 then ⌊q⌋
  else if 1 / 2 < q - ⌊q⌋ then ⌊q⌋ + 1
  else if ⌊q⌋ % 2 = 0 then ⌊q⌋ else ⌊q⌋ + 1

/-- Rounding of a non-negative value to IEEE 754 binary32 (`float`), to
nearest, ties to even: with `e` the binade of `x` (`2 ^ e ≤ x < 2 ^ (e + 1)`)
the value is rounded to a multiple of `2 ^ (e - 23)`, which leaves a 24-bit
significand.  The exponent is not bounded here: every value `cpu_usage`
forms is 0 or lies between `2 ^ -32` and `2 ^ 39` (`cpu_usage_operands_normal`),
far from the subnormal and the overflow range of binary32. -/
def round_f32 (x : ℚ) : ℚ :=
  if x ≤ 0 then 0
  else (round_half_even (x / 2 ^ (Int.log 2 x - 23)) : ℚ) * 2 ^ (Int.log 2 x - 23)

/-- Source `cpu_usage(unsigned total_ticks, unsigned idle_ticks)`, for
arguments below `2 ^ 32`.  The subtraction is 32-bit unsigned.  The two
conversions `(float)`, the quotient and the product by 100 are `float`
operations, each rounded to binary32 (`FLT_EVAL_METHOD` 0, as on ARM VFP and
x86-64); the value returned is the `float` as a rational. -/
def cpu_usage (total_ticks idle_ticks : Nat) : ℚ :=
  if total_ticks = 0 then 0
  else if idle_ticks = 0 then 100
  else
    let ret : ℚ := round_f32 (100 *
      round_f32 (round_f32 (((total_ticks + 2 ^ 32 - idle_ticks) % 2 ^ 32 : Nat) : ℚ)
        / round_f32 (total_ticks : ℚ)))
    if ret > 100 then 100 else ret

/-- The computation of `cpu_usage` with the quotient and the product taken
as exact rationals, without any rounding. -/
def cpu_usage_exact (total_ticks idle_ticks : Nat) : ℚ :=
  if total_ticks = 0 then 0
  else if idle_ticks = 0 then 100
  else
    let ret : ℚ := 100 * ((((total_ticks + 2 ^ 32 - idle_ticks) % 2 ^ 32 : Nat) : ℚ) / (total_ticks : ℚ))
    if ret > 100 then 100 else ret

/-! ## system_cpu_usage -/

/-- The needle `"cpu "` of `system_cpu_usage`. -/
def cpu_needle : List Char := ['c', 'p', 'u', ' ']

/-- The `while (true)` loop of `system_cpu_usage` over the matched line,
entered with pointer `p` (and `errno == 0`); returns `(total, idle)` as they
stand when the loop breaks.  `total` is a `size_t`, `idx` an `unsigned`.
An `ERANGE` from `strtoul` or an empty conversion breaks before the value is
added.  The fuel bounds the iterations; each one consumes at least one
character (`sum_ticks_fuel`). -/
def sum_ticks (w : Nat) : Nat → List Char → Nat → Nat → Nat → Nat × Nat
  | 0, _, total, idle, _ => (total, idle)
  | fuel + 1, p, total, idle, idx =>
    let r := strtoul w p
    if r.erange || r.noconv then (total, idle)
    else
      sum_ticks w fuel r.endptr ((total + r.value) % 2 ^ w)
        (if idx = 3 then r.value else idle) ((idx + 1) % 2 ^ 32)

/-- The `getline` loop of `system_cpu_usage`: the first line in which
`strstr` finds `"cpu "` is parsed from `dynbuf + 4`, and nothing after it is
read; without such a line `total` and `idle` stay 0. -/
def scan_stat (w : Nat) : List (List Char) → Nat × Nat
  | [] => (0, 0)
  | dynbuf :: rest =>
    if strstr_found dynbuf cpu_needle then
      sum_ticks w (dynbuf.length + 1) (dynbuf.drop 4) 0 0 0
    else scan_stat w rest

/-- Source `system_cpu_usage`, with the content of `/proc/stat` passed as
`stat`; returns `(*ticks_total, *ticks_idle)`. -/
def system_cpu_usage (w : Nat) : Source → Nat × Nat
  | none => (0, 0)
  | some lines => scan_stat w lines

/-! ## update_process_memstats -/

/-- Source `smaps_private`. -/
def smaps_private : List Char := "Private_".toList

/-- Source `smaps_pclean`. -/
def smaps_pclean : List Char := "Clean: ".toList

/-- Source `smaps_pdirty`. -/
def smaps_pdirty : List Char := "Dirty: ".toList

/-- Source `smaps_swap`. -/
def smaps_swap : List Char := "Swap: ".toList

/-- C `sizeof` of a `char` array initialised from a string literal: the
characters and the terminating NUL. -/
def sizeof (s : List Char) : Nat := s.length + 1

/-- Body of the `getline` loop of `update_process_memstats` for one line:
the accumulators `(mem_clean, mem_dirty)` after the line.  Both are
`size_t`. -/
def memstats_line (w : Nat) (dynbuf : List Char) (mem_clean mem_dirty : Nat) : Nat × Nat :=
  if dynbuf.head? ≠ some 'P' ∧ dynbuf.head? ≠ some 'S' then (mem_clean, mem_dirty)
  else if begins_with dynbuf smaps_private then
    if begins_with (dynbuf.drop (sizeof smaps_private - 1)) smaps_pclean then
      ((mem_clean + (strtoul w (dynbuf.drop (sizeof smaps_private + sizeof smaps_pclean - 2))).value)
        % 2 ^ w, mem_dirty)
    else if begins_with (dynbuf.drop (sizeof smaps_private - 1)) smaps_pdirty then
      (mem_clean,
        (mem_dirty + (strtoul w (dynbuf.drop (sizeof smaps_private + sizeof smaps_pdirty - 2))).value)
          % 2 ^ w)
    else (mem_clean, mem_dirty)
  else if begins_with dynbuf smaps_swap then
    (mem_clean, (mem_dirty + (strtoul w (dynbuf.drop (sizeof smaps_swap - 1))).value) % 2 ^ w)
  else (mem_clean, mem_dirty)

/-- The reading part of `update_process_memstats`, up to label `done`: the
local `(mem_clean, mem_dirty)`. -/
def read_memstats (w : Nat) : Source → Nat × Nat
  | none => (0, 0)
  | some lines => lines.foldl (fun acc dynbuf => memstats_line w dynbuf acc.1 acc.2) (0, 0)

/-- The cast `(ssize_t)x` of a `size_t`: the two's complement reading of the
low `w` bits. -/
def to_ssize (w : Nat) (x : Nat) : Int :=
  if x % 2 ^ w < 2 ^ (w - 1) then ((x % 2 ^ w : Nat) : Int) else ((x % 2 ^ w : Nat) : Int) - 2 ^ w

/-- Subtraction of two `ssize_t`, wrapping to `w` bits as the machine
instruction does. -/
def ssize_sub (w : Nat) (a b : Int) : Int :=
  to_ssize w ((a - b) % 2 ^ w).toNat

/-- Source `update_process_memstats`, with the content of
`process->smaps_path` passed as `smaps`. -/
def update_process_memstats (w : Nat) (smaps : Source) (process : monitored_process_t) :
    monitored_process_t :=
  let m := read_memstats w smaps
  { process with
    mem_change :=
      ssize_sub w (to_ssize w ((m.1 + m.2) % 2 ^ w))
        (to_ssize w ((process.mem_clean + process.mem_dirty) % 2 ^ w))
    mem_clean := m.1
    mem_dirty := m.2 }

/-! ## monitor_pid -/

/-- The three out-parameters of `monitor_pid`: the array `*mprocs` (its
first `mprocs_cnt` slots), `*mprocs_cnt` and `*mprocs_cap`. -/
structure registry where
  mprocs : List monitored_process_t
  mprocs_cnt : Nat
  mprocs_cap : Nat
deriving DecidableEq, Repr

/-- The registry `parse_cmdline` starts from: `m = NULL`, `cnt = 0`, `cap = 0`. -/
def registry_empty : registry := ⟨[], 0, 0⟩

/-- `asprintf(&s, "/proc/%u/<leaf>", pid)`. -/
def proc_path (pid : Nat) (leaf : List Char) : List Char :=
  "/proc/".toList ++ Nat.toDigits 10 pid ++ ('/' :: leaf)

/-- The slot `monitor_pid` fills: zeroed by `memset`, then `pid`, the two
paths and the name.  The name is what `pid2name(pid)` returned. -/
def new_entry (pid2name : Nat → Option (List Char)) (pid : Nat) : monitored_process_t :=
  { pid := pid
    name := pid2name pid
    smaps_path := proc_path pid "smaps".toList
    stat_path := proc_path pid "stat".toList
    mem_clean := 0
    mem_dirty := 0
    mem_change := 0
    cputicks_total := 0
    cputicks_change := 0 }

/-- Source `monitor_pid`.  `none` is `exit(1)` on `pid == 0`; `realloc` and
`asprintf` are taken to succeed (their failure exits as well).  The capacity
and the count are `unsigned`.  The slot written is index `*mprocs_cnt`. -/
def monitor_pid (pid2name : Nat → Option (List Char)) (pid : Nat) (r : registry) :
    Option registry :=
  if pid = 0 then none
  else
    let cap :=
      if r.mprocs_cap ≤ r.mprocs_cnt then
        (if (r.mprocs_cap * 2) % 2 ^ 32 < 4 then 4 else (r.mprocs_cap * 2) % 2 ^ 32)
      else r.mprocs_cap
    some { mprocs := r.mprocs.take r.mprocs_cnt ++ [new_entry pid2name pid]
           mprocs_cnt := (r.mprocs_cnt + 1) % 2 ^ 32
           mprocs_cap := cap }

/-- Successive `monitor_pid` calls of `parse_cmdline`, one per requested
pid, in order. -/
def monitor_pids (pid2name : Nat → Option (List Char)) : List Nat → registry → Option registry
  | [], r => some r
  | pid :: pids, r =>
    match monitor_pid pid2name pid r with
    | none => none
    | some r1 => monitor_pids pid2name pids r1

/-! ## cmdline -/

/-- The bytes one `getline` call takes from a stream: up to and including the
first newline, or everything when there is none. -/
def getline_bytes : List Char → List Char
  | [] => []
  | c :: cs => if c = LF then [c] else c :: getline_bytes cs

/-- The loop `for (i=0; i < n; ++i) if (line[i] == 0) line[i] = ' ';`. -/
def nul_to_space (n : Nat) (line : List Char) : List Char :=
  (line.take n).map (fun c => if c = NUL then ' ' else c) ++ line.drop n

/-- What `cmdline` hands back: `NULL`, a string, or no defined result because
`memmove` read past the end of the buffer. -/
inductive cmdline_result where
  | null
  | name (s : List Char)
  | overrun
deriving DecidableEq, Repr

/-- Source `cmdline(pid)`, with the bytes of `/proc/<pid>/cmdline` passed as
`content` (`none` when `fopen` fails; `asprintf` is taken to succeed).
After `getline` the buffer `line` holds the `read` bytes taken from the file,
the terminating NUL, and then `slack`: the bytes of the allocation behind the
terminator (what is left of the path string `asprintf` wrote when the buffer
was not reallocated, indeterminate bytes otherwise).  `strrchr` sees the C
string in the buffer, that is argument 0.  `offset` is the `int`
`base - line - 1`; `memmove(line, base + 1, read - offset)` copies within the
buffer. -/
def cmdline (content : Option (List Char)) (slack : List Char) : cmdline_result :=
  match content with
  | none => cmdline_result.null
  | some bytes =>
    let data := getline_bytes bytes
    if data.length < 1 then cmdline_result.null
    else
      let line := data ++ NUL :: slack
      let read : Int := data.length
      match strrchr (cstr line) '/' with
      | none => cmdline_result.name (cstr (nul_to_space (read - 1).toNat line))
      | some base =>
        let k : Nat := (cstr line).length - base.length
        let offset : Int := (k : Int) - 1
        let n : Nat := (read - offset).toNat
        if line.length < k + 1 + n then cmdline_result.overrun
        else
          let line1 := (line.drop (k + 1)).take n ++ line.drop n
          let read1 : Int := read - offset
          cmdline_result.name (cstr (nul_to_space (read1 - 1).toNat line1))

/-! ## main: the CPU columns of the sampling loop -/

/-- Conversion of a `size_t` argument to the `unsigned` parameter of
`cpu_usage`. -/
def to_unsigned (x : Nat) : Nat := x % 2 ^ 32

/-- Subtraction of two `size_t`. -/
def size_sub (w a b : Nat) : Nat := (a + 2 ^ w - b) % 2 ^ w

/-- The path `/proc/stat`. -/
def proc_stat : List Char := "/proc/stat".toList

/-- The pseudo-files as one round finds them: the content by path, and, by
path, the bytes the shared `dynbuf` holds behind the terminating NUL once the
first line of that file has been read into it. -/
structure Files where
  content : List Char → Source
  stale : List Char → List Char

/-- The locals of `main` that feed the CPU columns, and the registry.  The
memory columns read `/proc/meminfo` through `parse_proc_meminfo`, which is
not part of this source file, and are left out. -/
structure main_state where
  cpu_ticks_total : Nat
  cpu_ticks_idle : Nat
  cpu_ticks_total_prev : Nat
  cpu_ticks_idle_prev : Nat
  mprocs : List monitored_process_t
deriving DecidableEq, Repr

/-- Source `update_processes`, in a round without interrupt (`quit == 0`):
every entry, in order, through `update_process_memstats` and then
`update_process_cpustats`. -/
def update_processes (w : Nat) (files : Files) (mprocs : List monitored_process_t) :
    List monitored_process_t :=
  mprocs.map (fun p =>
    update_process_cpustats w (files.content p.stat_path) (files.stale p.stat_path)
      (update_process_memstats w (files.content p.smaps_path) p))

/-- The baseline sample `main` takes before the loop: the tick counters are
read once and copied to the previous ones, every process is sampled, and the
two change fields of every entry are zeroed. -/
def main_baseline (w : Nat) (files : Files) (mprocs : List monitored_process_t) : main_state :=
  let t := system_cpu_usage w (files.content proc_stat)
  { cpu_ticks_total := t.1
    cpu_ticks_idle := t.2
    cpu_ticks_total_prev := t.1
    cpu_ticks_idle_prev := t.2
    mprocs := (update_processes w files mprocs).map
      (fun p => { p with mem_change := 0, cputicks_change := 0 }) }

/-- The system CPU percentage one iteration of the loop prints:
`cpu_usage(cpu_ticks_total-cpu_ticks_total_prev, cpu_ticks_idle-cpu_ticks_idle_prev)`. -/
def system_cpu_percent (w : Nat) (s : main_state) : ℚ :=
  cpu_usage (to_unsigned (size_sub w s.cpu_ticks_total s.cpu_ticks_total_prev))
    (to_unsigned (size_sub w s.cpu_ticks_idle s.cpu_ticks_idle_prev))

/-- The CPU percentage one iteration of the loop prints for entry `p`:
`cpu_usage(cpu_ticks_total-cpu_ticks_total_prev,
(cpu_ticks_total-cpu_ticks_total_prev) - mprocs[i].cputicks_change)`. -/
def process_cpu_percent (w : Nat) (s : main_state) (p : monitored_process_t) : ℚ :=
  cpu_usage (to_unsigned (size_sub w s.cpu_ticks_total s.cpu_ticks_total_prev))
    (to_unsigned
      (size_sub w (size_sub w s.cpu_ticks_total s.cpu_ticks_total_prev) p.cputicks_change))

/-- The CPU columns of the line one iteration prints: the system percentage
and one percentage per entry, in registry order. -/
def main_emit (w : Nat) (s : main_state) : ℚ × List ℚ :=
  (system_cpu_percent w s, s.mprocs.map (process_cpu_percent w s))

/-- The end of one iteration of the loop, after the sleep: the current tick
counters become the previous ones, `system_cpu_usage` reads the new ones, and
`update_processes` samples every entry. -/
def main_next (w : Nat) (files : Files) (s : main_state) : main_state :=
  let t := system_cpu_usage w (files.content proc_stat)
  { cpu_ticks_total := t.1
    cpu_ticks_idle := t.2
    cpu_ticks_total_prev := s.cpu_ticks_total
    cpu_ticks_idle_prev := s.cpu_ticks_idle
    mprocs := update_processes w files s.mprocs }

/-! ## Vocabulary of the statements -/

/-- A run of white space (possibly empty). -/
def is_blank (ws : List Char) : Prop := ∀ c ∈ ws, isspace c = true

/-- An unsigned decimal numeral: one or more digit characters. -/
def is_decimal (ds : List Char) : Prop := ds ≠ [] ∧ ∀ c ∈ ds, isdigit c = true

/-- The number a decimal numeral denotes. -/
def decval (ds : List Char) : Nat := ds.foldl (fun a c => a * 10 + digit_value c) 0

/-- The string does not start with a digit (it may be empty). -/
def no_digit_head (s : List Char) : Prop := ∀ c ∈ s.head?, isdigit c = false

/-- Integer fields written one after the other, each numeral `f.2` preceded
by its separator `f.1`, followed by `trailer`. -/
def render_ints : List (List Char × List Char) → List Char → List Char
  | [], trailer => trailer
  | f :: fs, trailer => f.1 ++ (f.2 ++ render_ints fs trailer)

/-- A per-core line of `/proc/stat`: `cpu`, a core number, then digits and
white space only. -/
def is_percore_line (l : List Char) : Prop :=
  ∃ d body, l = 'c' :: 'p' :: 'u' :: d :: body ∧ isdigit d = true ∧
    ∀ c ∈ body, isdigit c = true ∨ isspace c = true

/-- Fields of a stat line written one after the other, each preceded by a
single space, followed by `rest`. -/
def render_fields : List (List Char) → List Char → List Char
  | [], rest => rest
  | f :: fs, rest => ' ' :: (f ++ render_fields fs rest)

/-- The line `s` begins with the key `key`. -/
def starts_with (key s : List Char) : Bool := s.take key.length == key

/-- The number `strtoul` reads after the key of an smaps line. -/
def smaps_value (w : Nat) (key l : List Char) : Nat := (strtoul w (l.drop key.length)).value

/-- The key `Private_Clean: ` of an smaps line. -/
def key_private_clean : List Char := "Private_Clean: ".toList

/-- The key `Private_Dirty: ` of an smaps line. -/
def key_private_dirty : List Char := "Private_Dirty: ".toList

/-- The key `Swap: ` of an smaps line. -/
def key_swap : List Char := "Swap: ".toList

/-- Sum of the values of the lines that begin with `key`. -/
def smaps_sum (w : Nat) (key : List Char) (lines : List (List Char)) : Nat :=
  ((lines.filter (starts_with key)).map (smaps_value w key)).sum

/-- The capacity policy of the registry, as a property of a count and a
capacity: nothing allocated while the count is 0; otherwise the capacity is
4 doubled `j` times, and it was doubled the last time only because the
count had reached the previous capacity. -/
def cap_policy (cnt cap : Nat) : Prop :=
  (cnt = 0 ∧ cap = 0) ∨ ∃ j, cap = 4 * 2 ^ j ∧ (0 < j → 4 * 2 ^ (j - 1) < cnt)

/-- Invariant of the registry: the entries written so far are exactly the
first `mprocs_cnt` slots, they fit the capacity, and the capacity follows
the policy. -/
def registry_inv (r : registry) : Prop :=
  r.mprocs.length = r.mprocs_cnt ∧ r.mprocs_cnt ≤ r.mprocs_cap ∧
    cap_policy r.mprocs_cnt r.mprocs_cap

/-- The system-wide total tick delta of a round, as the 32-bit `unsigned`
that `cpu_usage` receives. -/
def tick_delta (w : Nat) (s : main_state) : Nat :=
  to_unsigned (size_sub w s.cpu_ticks_total s.cpu_ticks_total_prev)

/-- A state of `main` with the given tick counters and no process. -/
def ticks_state (total idle total_prev idle_prev : Nat) : main_state :=
  ⟨total, idle, total_prev, idle_prev, []⟩

/-- An entry whose `cputicks_change` is `d` and whose other fields are 0. -/
def entry_with_change (d : Nat) : monitored_process_t :=
  { new_entry (fun _ => none) 1 with cputicks_change := d }

/-- Pseudo-files of a round in which `/proc/stat` holds the aggregate line of
the source comment and nothing else can be opened. -/
def stat_only_files : Files :=
  ⟨fun path =>
    if path = proc_stat then
      some ["cpu  838113 15940 166151 69829927 155772 1484 2638 0 0\n".toList]
    else none,
   fun _ => []⟩

/-- Pseudo-files of a round in which nothing can be opened. -/
def no_files : Files := ⟨fun _ => none, fun _ => []⟩

/-- The bytes of a command-line source: every argument followed by a NUL. -/
def cmdline_bytes : List (List Char) → List Char
  | [] => []
  | a :: rest => a ++ NUL :: cmdline_bytes rest

/-- Strings joined with the separator `sep` between them. -/
def join_with (sep : Char) : List (List Char) → List Char
  | [] => []
  | [a] => a
  | a :: b :: rest => a ++ sep :: join_with sep (b :: rest)

/-- Argument 0 with everything up to and including its last `/` removed. -/
def basename (a0 : List Char) : List Char :=
  match strrchr a0 '/' with
  | none => a0
  | some r => r.drop 1

/-- The display name the spec describes for a command line: the basename of
argument 0 and the further arguments, joined with single spaces. -/
def display_name : List (List Char) → List Char
  | [] => []
  | a0 :: rest => join_with ' ' (basename a0 :: rest)

/-- The field the loop of `system_cpu_usage` keeps as `idle` when it runs
over the values `vals` starting with counter `idx`: the one met when the
counter is 3, else the previous `idle`. -/
def idle_pick (idx : Nat) (vals : List Nat) (idle : Nat) : Nat :=
  if idx ≤ 3 then (vals.get? (3 - idx)).getD idle else idle

/-- The string `n` occurs somewhere in `l`. -/
def has_infix (l n : List Char) : Prop := ∃ a b, l = a ++ (n ++ b)

instance (ws : List Char) : Decidable (is_blank ws) := by
  unfold is_blank; infer_instance

instance (ds : List Char) : Decidable (is_decimal ds) := by
  unfold is_decimal; infer_instance

instance (s : List Char) : Decidable (no_digit_head s) := by
  unfold no_digit_head; infer_instance

/-! ## Lemmas on the primitives -/

theorem strchr_length {s : List Char} {c : Char} {q : List Char} (h : strchr s c = some q) :
    0 < q.length ∧ q.length ≤ s.length := by
  induction s with
  | nil => simp [strchr] at h
  | cons x xs ih =>
    simp only [strchr] at h
    split at h
    · cases h; simp
    · have := ih h
      simp only [List.length_cons]; omega

/-- Fuel beyond `p.length` does not change what the loop returns: the loop of
`update_process_cpustats` terminates, and `p.length + 1` iterations suffice. -/
theorem scan_ticks_fuel (w : Nat) (f1 f2 : Nat) (p : List Char) (idx utime : Nat)
    (h1 : p.length < f1) (h2 : p.length < f2) :
    scan_ticks w f1 p idx utime = scan_ticks w f2 p idx utime := by
  induction f1 generalizing f2 p idx utime with
  | zero => omega
  | succ n ih =>
    cases f2 with
    | zero => omega
    | succ m =>
      simp only [scan_ticks]
      cases hq : strchr (p.drop 1) ' ' with
      | none => rfl
      | some q =>
        have hl := strchr_length hq
        have hd : (p.drop 1).length = p.length - 1 := by simp
        have hn : q.length < n := by omega
        have hm : q.length < m := by omega
        simp only []
        split
        · cases sscanf_zu w q with
          | none => rfl
          | some v => exact ih m q _ v hn hm
        · split
          · rfl
          · exact ih m q _ utime hn hm

theorem isdigit_not_isspace {c : Char} (h : isdigit c = true) : isspace c = false := by
  simp only [isdigit, Bool.and_eq_true, decide_eq_true_eq] at h
  simp only [isspace, Bool.or_eq_false_iff, decide_eq_false_iff_not, Bool.and_eq_false_iff]
  constructor
  · rintro rfl
    revert h; decide
  · omega

theorem isdigit_not_sign {c : Char} (h : isdigit c = true) : c ≠ '-' ∧ c ≠ '+' := by
  simp only [isdigit, Bool.and_eq_true, decide_eq_true_eq] at h
  constructor <;> (rintro rfl; revert h; decide)

theorem skip_space_blank (ws s : List Char) (h : is_blank ws) :
    skip_space (ws ++ s) = skip_space s := by
  induction ws with
  | nil => rfl
  | cons c cs ih =>
    have hc : isspace c = true := h c (List.mem_cons_self _ _)
    simp only [List.cons_append, skip_space, hc, if_true]
    exact ih (fun x hx => h x (List.mem_cons_of_mem _ hx))

theorem skip_space_digit (c : Char) (cs : List Char) (h : isdigit c = true) :
    skip_space (c :: cs) = c :: cs := by
  simp [skip_space, isdigit_not_isspace h]

theorem scan_digits_append (acc : Nat) (ds rest : List Char)
    (hd : ∀ c ∈ ds, isdigit c = true) (hr : no_digit_head rest) :
    scan_digits acc (ds ++ rest) = (ds.foldl (fun a c => a * 10 + digit_value c) acc, rest) := by
  induction ds generalizing acc with
  | nil =>
    cases rest with
    | nil => rfl
    | cons r rs =>
      have : isdigit r = false := hr r (by simp)
      simp [scan_digits, this]
  | cons c cs ih =>
    have hc : isdigit c = true := hd c (List.mem_cons_self _ _)
    simp only [List.cons_append, scan_digits, hc, if_true, List.foldl_cons]
    exact ih _ (fun x hx => hd x (List.mem_cons_of_mem _ hx))

/-- `strtoul` on optional white space, a decimal numeral that fits, and a
rest that does not continue the numeral: the numeral's value, `end` at the
rest. -/
theorem strtoul_decimal (w : Nat) (ws ds rest : List Char)
    (hws : is_blank ws) (hds : is_decimal ds) (hr : no_digit_head rest)
    (hv : decval ds < 2 ^ w) :
    strtoul w (ws ++ (ds ++ rest)) = ⟨decval ds, rest, false, false⟩ := by
  obtain ⟨hne, hd⟩ := hds
  cases ds with
  | nil => exact absurd rfl hne
  | cons c cs =>
    have hc : isdigit c = true := hd c (List.mem_cons_self _ _)
    have hs := isdigit_not_sign hc
    have h1 : scan_sign (skip_space (ws ++ (c :: cs ++ rest))) = (false, c :: (cs ++ rest)) := by
      rw [skip_space_blank _ _ hws, List.cons_append, skip_space_digit c _ hc]
      simp [scan_sign, hs.1, hs.2]
    have h2 := scan_digits_append 0 (c :: cs) rest hd hr
    simp only [List.cons_append] at h2
    have h3 : ¬ 2 ^ w ≤ List.foldl (fun a c => a * 10 + digit_value c) 0 (c :: cs) := by
      simpa [decval] using hv
    simp only [strtoul, h1, hc, if_true, h2, h3, if_false]
    simp [decval]

/-- `strtoul` on white space only converts nothing. -/
theorem strtoul_blank (w : Nat) (ws : List Char) (hws : is_blank ws) :
    (strtoul w ws).noconv = true := by
  have h := skip_space_blank ws [] hws
  simp only [List.append_nil] at h
  simp [strtoul, h, skip_space, scan_sign]

theorem skip_space_length (s : List Char) : (skip_space s).length ≤ s.length := by
  induction s with
  | nil => simp [skip_space]
  | cons c cs ih =>
    simp only [skip_space]
    split
    · simp only [List.length_cons]; omega
    · exact le_refl _

theorem scan_sign_length (s : List Char) : (scan_sign s).2.length ≤ s.length := by
  cases s with
  | nil => simp [scan_sign]
  | cons c cs =>
    simp only [scan_sign]
    split
    · simp
    · split <;> simp

theorem scan_digits_length (acc : Nat) (s : List Char) :
    (scan_digits acc s).2.length ≤ s.length := by
  induction s generalizing acc with
  | nil => simp [scan_digits]
  | cons c cs ih =>
    simp only [scan_digits]
    split
    · have := ih (acc * 10 + digit_value c)
      simp only [List.length_cons]; omega
    · exact le_refl _

/-- A conversion by `strtoul` consumes at least one character. -/
theorem strtoul_endptr_length (w : Nat) (nptr : List Char)
    (h : (strtoul w nptr).noconv = false) :
    (strtoul w nptr).endptr.length < nptr.length := by
  have h1 := skip_space_length nptr
  have h2 := scan_sign_length (skip_space nptr)
  revert h
  simp only [strtoul]
  cases hs : (scan_sign (skip_space nptr)).2 with
  | nil => simp
  | cons c cs =>
    rw [hs] at h2
    simp only [List.length_cons] at h2
    by_cases hc : isdigit c = true
    · have h3 : (scan_digits 0 (c :: cs)).2.length ≤ cs.length := by
        simp only [scan_digits, hc, if_true]
        exact scan_digits_length _ cs
      simp only [hc, if_true]
      split <;> (intro _; simp only []; omega)
    · simp [hc]

/-- Fuel beyond `p.length` does not change what the loop of
`system_cpu_usage` returns: it terminates within `p.length + 1` iterations. -/
theorem sum_ticks_fuel (w : Nat) (f1 f2 : Nat) (p : List Char) (total idle idx : Nat)
    (h1 : p.length < f1) (h2 : p.length < f2) :
    sum_ticks w f1 p total idle idx = sum_ticks w f2 p total idle idx := by
  induction f1 generalizing f2 p total idle idx with
  | zero => omega
  | succ n ih =>
    cases f2 with
    | zero => omega
    | succ m =>
      simp only [sum_ticks]
      split
      · rfl
      · next hb =>
        have hnc : (strtoul w p).noconv = false := by
          simp only [Bool.or_eq_true, not_or, Bool.not_eq_true] at hb
          exact hb.2
        have hl := strtoul_endptr_length w p hnc
        exact ih m _ _ _ _ (by omega) (by omega)

theorem isspace_not_isdigit {c : Char} (h : isspace c = true) : isdigit c = false := by
  cases hd : isdigit c with
  | false => rfl
  | true => rw [isdigit_not_isspace hd] at h; cases h

theorem no_digit_head_render (fs : List (List Char × List Char)) (trailer : List Char)
    (hb : ∀ f ∈ fs, is_blank f.1) (hsep : ∀ f ∈ fs, f.1 ≠ []) (htr : no_digit_head trailer) :
    no_digit_head (render_ints fs trailer) := by
  cases fs with
  | nil => exact htr
  | cons g gs =>
    have hg := hsep g (List.mem_cons_self _ _)
    have hgb := hb g (List.mem_cons_self _ _)
    cases hg1 : g.1 with
    | nil => exact absurd hg1 hg
    | cons c cs =>
      intro x hx
      simp only [render_ints, hg1, List.cons_append, List.head?_cons, Option.mem_def,
        Option.some.injEq] at hx
      subst hx
      exact isspace_not_isdigit (hgb c (by simp [hg1]))

theorem idle_pick_cons (idx v : Nat) (vals : List Nat) (idle : Nat) (h : idx + 1 < 2 ^ 32) :
    idle_pick ((idx + 1) % 2 ^ 32) vals (if idx = 3 then v else idle)
      = idle_pick idx (v :: vals) idle := by
  rw [Nat.mod_eq_of_lt h]
  unfold idle_pick
  by_cases h3 : idx = 3
  · subst h3; simp
  · by_cases hlt : idx < 3
    · have e : 3 - idx = (3 - (idx + 1)) + 1 := by omega
      have h1 : idx + 1 ≤ 3 := by omega
      have h2 : idx ≤ 3 := by omega
      simp only [h1, h2, if_true, h3, if_false]
      rw [e, List.get?_cons_succ]
    · have h1 : ¬ idx + 1 ≤ 3 := by omega
      have h2 : ¬ idx ≤ 3 := by omega
      simp [h1, h2, h3]

/-- The loop of `system_cpu_usage` over `k` well-formed integer fields
followed by something `strtoul` cannot convert: it adds all `k` values to
`total` (modulo `2 ^ w`) and keeps the value met at `idx == 3`. -/
theorem sum_ticks_render (w : Nat) (fs : List (List Char × List Char)) (trailer : List Char)
    (hf : ∀ f ∈ fs, is_blank f.1 ∧ is_decimal f.2 ∧ decval f.2 < 2 ^ w)
    (hsep : ∀ f ∈ fs.tail, f.1 ≠ [])
    (htr : no_digit_head trailer)
    (hstop : ((strtoul w trailer).erange || (strtoul w trailer).noconv) = true)
    (fuel total idle idx : Nat)
    (hfuel : (render_ints fs trailer).length < fuel)
    (ht : total < 2 ^ w) (hidx : idx + fs.length ≤ 2 ^ 32) :
    sum_ticks w fuel (render_ints fs trailer) total idle idx
      = ((total + (fs.map (fun f => decval f.2)).sum) % 2 ^ w,
         idle_pick idx (fs.map (fun f => decval f.2)) idle) := by
  induction fs generalizing fuel total idle idx with
  | nil =>
    cases fuel with
    | zero => omega
    | succ n =>
      simp only [render_ints, sum_ticks, hstop, if_true, List.map_nil, List.sum_nil,
        Nat.add_zero, Nat.mod_eq_of_lt ht]
      simp [idle_pick]
  | cons f fs ih =>
    cases fuel with
    | zero => omega
    | succ n =>
      obtain ⟨hb, hd, hv⟩ := hf f (List.mem_cons_self _ _)
      have hf1 : ∀ g ∈ fs, is_blank g.1 ∧ is_decimal g.2 ∧ decval g.2 < 2 ^ w :=
        fun g hg => hf g (List.mem_cons_of_mem _ hg)
      have hsep1 : ∀ g ∈ fs, g.1 ≠ [] := fun g hg => hsep g (by simpa using hg)
      have hnd := no_digit_head_render fs trailer (fun g hg => (hf1 g hg).1) hsep1 htr
      have hst := strtoul_decimal w f.1 f.2 (render_ints fs trailer) hb hd hnd hv
      have hlen : (render_ints fs trailer).length < n := by
        have hp : 0 < f.2.length := List.length_pos.mpr hd.1
        simp only [render_ints, List.length_append] at hfuel
        omega
      simp only [List.length_cons] at hidx
      simp only [render_ints, sum_ticks, hst, Bool.or_self, Bool.false_eq_true, if_false]
      by_cases hfs : fs = []
      · subst hfs
        cases n with
        | zero => omega
        | succ n1 =>
          simp only [render_ints, sum_ticks, hstop, if_true, List.map_cons, List.map_nil,
            List.sum_cons, List.sum_nil, Nat.add_zero]
          unfold idle_pick
          by_cases h3 : idx = 3
          · subst h3; simp
          · by_cases hlt : idx < 3
            · have e : 3 - idx = (3 - (idx + 1)) + 1 := by omega
              have h2 : idx ≤ 3 := by omega
              simp only [h2, if_true, h3, if_false]
              rw [e, List.get?_cons_succ]; simp
            · have h2 : ¬ idx ≤ 3 := by omega
              simp [h2, h3]
      · have hpos : 0 < fs.length := List.length_pos.mpr hfs
        have hi1 : idx + 1 < 2 ^ 32 := by omega
        rw [ih hf1 (fun g hg => hsep1 g (List.mem_of_mem_tail hg)) n _ _ _ hlen
          (Nat.mod_lt _ (Nat.two_pow_pos w))
          (by rw [Nat.mod_eq_of_lt hi1]; omega)]
        rw [idle_pick_cons _ _ _ _ hi1]
        simp only [List.map_cons, List.sum_cons]
        congr 1
        rw [Nat.mod_add_mod, Nat.add_assoc]

theorem begins_with_iff (s n : List Char) : begins_with s n = true ↔ ∃ b, s = n ++ b := by
  induction n generalizing s with
  | nil => simp [begins_with]
  | cons y ys ih =>
    cases s with
    | nil => simp [begins_with]
    | cons x xs =>
      simp only [begins_with, List.cons_append, List.cons.injEq]
      by_cases hxy : x = y
      · subst hxy
        simp only [ne_eq, not_true_eq_false, if_false, true_and]
        exact ih xs
      · simp [hxy]

/-- `strstr` finds the needle exactly when it occurs in the haystack. -/
theorem strstr_found_iff (l n : List Char) : strstr_found l n = true ↔ has_infix l n := by
  induction l with
  | nil =>
    cases n with
    | nil => simp only [strstr_found, List.isEmpty_nil, true_iff]; exact ⟨[], [], rfl⟩
    | cons y ys =>
      simp only [strstr_found, List.isEmpty_cons, Bool.false_eq_true, false_iff]
      rintro ⟨a, b, h⟩
      cases a <;> simp at h
  | cons x xs ih =>
    simp only [strstr_found, Bool.or_eq_true, begins_with_iff, ih]
    constructor
    · rintro (⟨b, hb⟩ | ⟨a, b, hab⟩)
      · exact ⟨[], b, hb⟩
      · exact ⟨x :: a, b, by simp [hab]⟩
    · rintro ⟨a, b, hab⟩
      cases a with
      | nil => exact Or.inl ⟨b, hab⟩
      | cons a0 as =>
        simp only [List.cons_append, List.cons.injEq] at hab
        exact Or.inr ⟨as, b, hab.2⟩

theorem strstr_found_no_c (s : List Char) (h : ∀ x ∈ s, x ≠ 'c') :
    strstr_found s cpu_needle = false := by
  induction s with
  | nil => rfl
  | cons x xs ih =>
    have hx : x ≠ 'c' := h x (List.mem_cons_self _ _)
    simp only [strstr_found, cpu_needle, begins_with, ne_eq, hx, not_false_eq_true, if_true,
      Bool.false_or]
    exact ih (fun y hy => h y (List.mem_cons_of_mem _ hy))

/-- A per-core line does not contain `"cpu "`. -/
theorem strstr_found_percore (l : List Char) (h : is_percore_line l) :
    strstr_found l cpu_needle = false := by
  obtain ⟨d, body, rfl, hd, hbody⟩ := h
  have hdsp : d ≠ ' ' := by
    rintro rfl; revert hd; decide
  have hdc : d ≠ 'c' := by
    rintro rfl; revert hd; decide
  have hb : ∀ x ∈ body, x ≠ 'c' := by
    intro x hx
    rintro rfl
    rcases hbody _ hx with h1 | h1 <;> (revert h1; decide)
  have h3 := strstr_found_no_c body hb
  simp [strstr_found, cpu_needle, begins_with, hdsp, hdc]
  simpa [cpu_needle] using h3

theorem scan_stat_skip (w : Nat) (pre rest : List (List Char))
    (hpre : ∀ l ∈ pre, strstr_found l cpu_needle = false) :
    scan_stat w (pre ++ rest) = scan_stat w rest := by
  induction pre with
  | nil => rfl
  | cons l ls ih =>
    simp only [List.cons_append, scan_stat, hpre l (List.mem_cons_self _ _), Bool.false_eq_true,
      if_false]
    exact ih (fun x hx => hpre x (List.mem_cons_of_mem _ hx))

/-- What `system_cpu_usage` returns when the first line containing `"cpu "`
starts with it and continues with `k` well-formed integer fields and then
something `strtoul` cannot convert. -/
theorem scan_stat_render (w : Nat) (pre post : List (List Char))
    (fs : List (List Char × List Char)) (trailer : List Char)
    (hpre : ∀ l ∈ pre, strstr_found l cpu_needle = false)
    (hf : ∀ f ∈ fs, is_blank f.1 ∧ is_decimal f.2 ∧ decval f.2 < 2 ^ w)
    (hsep : ∀ f ∈ fs.tail, f.1 ≠ [])
    (htr : no_digit_head trailer)
    (hstop : ((strtoul w trailer).erange || (strtoul w trailer).noconv) = true)
    (hk : fs.length ≤ 2 ^ 32) :
    system_cpu_usage w (some (pre ++ (cpu_needle ++ render_ints fs trailer) :: post))
      = ((fs.map (fun f => decval f.2)).sum % 2 ^ w,
         ((fs.map (fun f => decval f.2)).get? 3).getD 0) := by
  have hfound : strstr_found (cpu_needle ++ render_ints fs trailer) cpu_needle = true :=
    (strstr_found_iff _ _).mpr ⟨[], render_ints fs trailer, rfl⟩
  have hdrop : (cpu_needle ++ render_ints fs trailer).drop 4 = render_ints fs trailer := by
    simp [cpu_needle]
  simp only [system_cpu_usage, scan_stat_skip w pre _ hpre, scan_stat, hfound, if_true, hdrop]
  rw [sum_ticks_render w fs trailer hf hsep htr hstop _ 0 0 0 (by simp [cpu_needle]; omega)
    (Nat.two_pow_pos w) (by omega)]
  simp [idle_pick]

theorem strchr_skip (f r : List Char) (c : Char) (h : ∀ x ∈ f, x ≠ c) :
    strchr (f ++ c :: r) c = some (c :: r) := by
  induction f with
  | nil => simp [strchr]
  | cons x xs ih =>
    have hx : x ≠ c := h x (List.mem_cons_self _ _)
    simp only [List.cons_append, strchr, hx, if_false]
    exact ih (fun y hy => h y (List.mem_cons_of_mem _ hy))

theorem strrchr_none (s : List Char) (c : Char) (h : ∀ x ∈ s, x ≠ c) : strrchr s c = none := by
  induction s with
  | nil => rfl
  | cons x xs ih =>
    have hx : x ≠ c := h x (List.mem_cons_self _ _)
    simp [strrchr, ih (fun y hy => h y (List.mem_cons_of_mem _ hy)), hx]

/-- `strrchr` lands on a `c` after which no `c` occurs, whatever precedes it. -/
theorem strrchr_last (pre tail : List Char) (c : Char) (h : ∀ x ∈ tail, x ≠ c) :
    strrchr (pre ++ c :: tail) c = some (c :: tail) := by
  induction pre with
  | nil => simp [strrchr, strrchr_none tail c h]
  | cons x xs ih => simp [strrchr, ih]

theorem render_fields_head (fs : List (List Char)) (r : List Char) :
    ∃ t, render_fields fs (' ' :: r) = ' ' :: t := by
  cases fs with
  | nil => exact ⟨r, rfl⟩
  | cons f fs => exact ⟨f ++ render_fields fs (' ' :: r), rfl⟩

theorem render_fields_length (fs : List (List Char)) (r : List Char) :
    r.length ≤ (render_fields fs r).length := by
  induction fs with
  | nil => exact le_refl _
  | cons f fs ih => simp only [render_fields, List.length_cons, List.length_append]; omega

theorem mem_render_fields (fs : List (List Char)) (r : List Char) (c : Char)
    (h : c ∈ render_fields fs r) : c = ' ' ∨ (∃ f ∈ fs, c ∈ f) ∨ c ∈ r := by
  induction fs with
  | nil => exact Or.inr (Or.inr h)
  | cons f fs ih =>
    simp only [render_fields, List.mem_cons, List.mem_append] at h
    rcases h with h | h | h
    · exact Or.inl h
    · exact Or.inr (Or.inl ⟨f, List.mem_cons_self _ _, h⟩)
    · rcases ih h with h1 | ⟨g, hg, hc⟩ | h1
      · exact Or.inl h1
      · exact Or.inr (Or.inl ⟨g, List.mem_cons_of_mem _ hg, hc⟩)
      · exact Or.inr (Or.inr h1)

/-- The loop of `update_process_cpustats` over fields without spaces: when
the last of them brings the counter to 13, `%zu` is applied to what follows
it. -/
theorem scan_ticks_fields (w : Nat) (fs : List (List Char)) (r : List Char)
    (hsp : ∀ f ∈ fs, ∀ c ∈ f, c ≠ ' ')
    (fuel1 fuel2 idx utime : Nat) (hne : fs ≠ [])
    (h1 : (render_fields fs (' ' :: r)).length < fuel1) (h2 : (' ' :: r).length < fuel2)
    (hidx : idx + fs.length = 13) :
    scan_ticks w fuel1 (render_fields fs (' ' :: r)) idx utime
      = match sscanf_zu w (' ' :: r) with
        | none => (utime, 0)
        | some v => scan_ticks w fuel2 (' ' :: r) 13 v := by
  induction fs generalizing fuel1 idx with
  | nil => exact absurd rfl hne
  | cons f fs ih =>
    cases fuel1 with
    | zero => omega
    | succ n =>
      have hf : ∀ c ∈ f, c ≠ ' ' := hsp f (List.mem_cons_self _ _)
      obtain ⟨t, ht⟩ := render_fields_head fs r
      have hq : strchr (f ++ render_fields fs (' ' :: r)) ' '
          = some (render_fields fs (' ' :: r)) := by
        rw [ht]; exact strchr_skip f t ' ' hf
      simp only [List.length_cons] at hidx
      have hn : (render_fields fs (' ' :: r)).length < n := by
        simp only [render_fields, List.length_cons, List.length_append] at h1
        omega
      simp only [render_fields, scan_ticks, List.drop_succ_cons, List.drop_zero, hq]
      by_cases hfs : fs = []
      · subst hfs
        have hi : idx + 1 = 13 := by simpa using hidx
        simp only [hi, if_true, render_fields]
        cases sscanf_zu w (' ' :: r) with
        | none => rfl
        | some v => exact scan_ticks_fuel w _ _ _ _ _ (by simpa [render_fields] using hn) h2
      · have hpos : 0 < fs.length := List.length_pos.mpr hfs
        have hi1 : ¬ idx + 1 = 13 := by omega
        have hi2 : ¬ idx + 1 = 14 := by omega
        simp only [hi1, hi2, if_false]
        exact ih (fun g hg => hsp g (List.mem_cons_of_mem _ hg)) n (idx + 1) hfs hn (by omega)

/-- The iteration of `update_process_cpustats` that follows the one reading
`utime`: it skips the `utime` field and applies `%zu` to what follows. -/
theorem scan_ticks_stime (w : Nat) (u r : List Char) (hu : ∀ c ∈ u, c ≠ ' ')
    (fuel utime : Nat) (hfuel : 0 < fuel) :
    scan_ticks w fuel (' ' :: (u ++ ' ' :: r)) 13 utime
      = match sscanf_zu w (' ' :: r) with
        | none => (utime, 0)
        | some v => (utime, v) := by
  cases fuel with
  | zero => omega
  | succ n =>
    simp only [scan_ticks, List.drop_succ_cons, List.drop_zero, strchr_skip u r ' ' hu]
    simp

/-- What `update_process_cpustats` reads from a line that ends its name with
`)` and continues with eleven space-separated fields (fields 3 to 13) and a
space: `utime` is what `%zu` makes of what follows (field 14). -/
theorem read_cpustats_fields (w : Nat) (pre : List Char) (fs : List (List Char)) (r : List Char)
    (more : List (List Char)) (stale : List Char)
    (hfs : fs.length = 11)
    (hf : ∀ f ∈ fs, ∀ c ∈ f, c ≠ ' ' ∧ c ≠ ')')
    (hr : ∀ c ∈ r, c ≠ ')') :
    read_cpustats w (some ((pre ++ ')' :: render_fields fs (' ' :: r)) :: more)) stale
      = match sscanf_zu w (' ' :: r) with
        | none => (0, 0)
        | some v => scan_ticks w (r.length + 2) (' ' :: r) 13 v := by
  have hpar : ∀ c ∈ render_fields fs (' ' :: r), c ≠ ')' := by
    intro c hc
    rcases mem_render_fields _ _ _ hc with h | ⟨f, hfm, hcf⟩ | h
    · subst h; decide
    · exact (hf f hfm c hcf).2
    · simp only [List.mem_cons] at h
      rcases h with h | h
      · subst h; decide
      · exact hr c h
  have hne : fs ≠ [] := by
    intro h; rw [h] at hfs; simp at hfs
  obtain ⟨t, ht⟩ := render_fields_head fs r
  have hnil : ¬ render_fields fs (' ' :: r) = [] := by rw [ht]; simp
  simp only [read_cpustats, strrchr_last pre _ ')' hpar, List.drop_succ_cons, List.drop_zero,
    hnil, if_false]
  exact scan_ticks_fields w fs r (fun f hm c hc => (hf f hm c hc).1) _ (r.length + 2) 2 0 hne
    (by simp only [List.length_append, List.length_cons]; omega) (by simp) (by omega)

theorem render_fields_append (a b : List (List Char)) (r : List Char) :
    render_fields (a ++ b) r = render_fields a (render_fields b r) := by
  induction a with
  | nil => rfl
  | cons f fs ih => simp [render_fields, ih]

theorem isdigit_not_sep {c : Char} (h : isdigit c = true) : c ≠ ' ' ∧ c ≠ ')' := by
  simp only [isdigit, Bool.and_eq_true, decide_eq_true_eq] at h
  constructor <;> (rintro rfl; revert h; decide)

theorem sscanf_zu_decimal (w : Nat) (ds rest : List Char) (hds : is_decimal ds)
    (hr : no_digit_head rest) (hv : decval ds < 2 ^ w) :
    sscanf_zu w (' ' :: (ds ++ rest)) = some (decval ds) := by
  have h := strtoul_decimal w [' '] ds rest (by decide) hds hr hv
  simp only [List.singleton_append] at h
  simp [sscanf_zu, h]

theorem no_digit_head_space (r : List Char) : no_digit_head (' ' :: r) := by
  intro c hc
  simp only [List.head?_cons, Option.mem_def, Option.some.injEq] at hc
  subst hc
  decide

theorem starts_with_eq (key l : List Char) : starts_with key l = begins_with l key := by
  have h1 : starts_with key l = true ↔ ∃ b, l = key ++ b := by
    simp only [starts_with, beq_iff_eq]
    constructor
    · intro h
      refine ⟨l.drop key.length, ?_⟩
      have e := List.take_append_drop key.length l
      rw [h] at e
      exact e.symm
    · rintro ⟨b, rfl⟩
      exact List.take_left _ _
  have h2 := begins_with_iff l key
  cases hs : starts_with key l <;> cases hb : begins_with l key <;> simp_all

theorem begins_with_append (l a b : List Char) :
    begins_with l (a ++ b) = (begins_with l a && begins_with (l.drop a.length) b) := by
  induction a generalizing l with
  | nil => simp [begins_with]
  | cons x xs ih =>
    cases l with
    | nil => simp [begins_with]
    | cons y ys =>
      simp only [List.cons_append, begins_with, List.length_cons, List.drop_succ_cons]
      by_cases h : y = x
      · simp [h, ih]
      · simp [h]

theorem begins_with_private_head (l : List Char) (h : begins_with l smaps_private = true) :
    l.head? = some 'P' ∧ begins_with l smaps_swap = false := by
  cases l with
  | nil => simp [begins_with, smaps_private] at h
  | cons x xs =>
    by_cases hx : x = 'P'
    · subst hx
      exact ⟨rfl, by simp [begins_with, smaps_swap]⟩
    · simp [begins_with, smaps_private, hx] at h

theorem begins_with_swap_head (l : List Char) (h : begins_with l smaps_swap = true) :
    l.head? = some 'S' := by
  cases l with
  | nil => simp [begins_with, smaps_swap] at h
  | cons x xs =>
    by_cases hx : x = 'S'
    · subst hx; rfl
    · simp [begins_with, smaps_swap, hx] at h

theorem begins_with_clean_dirty (l : List Char) (h : begins_with l smaps_pclean = true) :
    begins_with l smaps_pdirty = false := by
  cases l with
  | nil => simp [begins_with, smaps_pclean] at h
  | cons x xs =>
    by_cases hx : x = 'C'
    · subst hx; simp [begins_with, smaps_pdirty]
    · simp [begins_with, smaps_pclean, hx] at h

/-- One line of an smaps file, as `update_process_memstats` treats it, in
terms of the key the line begins with. -/
theorem memstats_line_eq (w : Nat) (l : List Char) (c d : Nat) :
    memstats_line w l c d
      = (if starts_with key_private_clean l then (c + smaps_value w key_private_clean l) % 2 ^ w
         else c,
         if starts_with key_private_dirty l then (d + smaps_value w key_private_dirty l) % 2 ^ w
         else if starts_with key_swap l then (d + smaps_value w key_swap l) % 2 ^ w
         else d) := by
  have e1 : key_private_clean = smaps_private ++ smaps_pclean := by decide
  have e2 : key_private_dirty = smaps_private ++ smaps_pdirty := by decide
  have e3 : key_swap = smaps_swap := rfl
  have n1 : sizeof smaps_private - 1 = 8 := by decide
  have n2 : sizeof smaps_private + sizeof smaps_pclean - 2 = 15 := by decide
  have n3 : sizeof smaps_private + sizeof smaps_pdirty - 2 = 15 := by decide
  have n4 : sizeof smaps_swap - 1 = 6 := by decide
  have n5 : smaps_private.length = 8 := by decide
  have n6 : key_private_clean.length = 15 := by decide
  have n7 : key_private_dirty.length = 15 := by decide
  have n8 : key_swap.length = 6 := by decide
  simp only [starts_with_eq, smaps_value, n6, n7, n8]
  rw [e1, e2, e3, begins_with_append, begins_with_append, n5]
  simp only [memstats_line, n1, n2, n3, n4]
  by_cases hp : begins_with l smaps_private = true
  · obtain ⟨hh, hsw⟩ := begins_with_private_head l hp
    simp only [hh, hp, hsw, ne_eq, not_true_eq_false, false_and, if_false, if_true, Bool.true_and]
    by_cases hc : begins_with (l.drop 8) smaps_pclean = true
    · simp [hc, begins_with_clean_dirty _ hc]
    · by_cases hd : begins_with (l.drop 8) smaps_pdirty = true
      · simp [hc, hd]
      · simp [hc, hd]
  · by_cases hs : begins_with l smaps_swap = true
    · have hh := begins_with_swap_head l hs
      simp [hh, hp, hs]
    · simp only [hp, hs, Bool.false_and, Bool.false_eq_true, if_false]
      split <;> rfl

theorem smaps_sum_cons (w : Nat) (key l : List Char) (ls : List (List Char)) :
    smaps_sum w key (l :: ls)
      = (if starts_with key l then smaps_value w key l else 0) + smaps_sum w key ls := by
  unfold smaps_sum
  by_cases h : starts_with key l = true
  · simp [List.filter_cons, h]
  · simp [List.filter_cons, h]

theorem starts_with_dirty_swap (l : List Char) (h : starts_with key_private_dirty l = true) :
    starts_with key_swap l = false := by
  have e2 : key_private_dirty = smaps_private ++ smaps_pdirty := by decide
  rw [starts_with_eq, e2, begins_with_append, Bool.and_eq_true] at h
  rw [starts_with_eq]
  exact (begins_with_private_head l h.1).2

/-- The `getline` loop of `update_process_memstats` from accumulators
`acc`: the clean accumulator gains the values of the `Private_Clean: `
lines, the dirty one those of the `Private_Dirty: ` and `Swap: ` lines. -/
theorem memstats_foldl (w : Nat) (lines : List (List Char)) (acc : Nat × Nat)
    (hc : acc.1 < 2 ^ w) (hd : acc.2 < 2 ^ w) :
    lines.foldl (fun acc dynbuf => memstats_line w dynbuf acc.1 acc.2) acc
      = ((acc.1 + smaps_sum w key_private_clean lines) % 2 ^ w,
         (acc.2 + (smaps_sum w key_private_dirty lines + smaps_sum w key_swap lines)) % 2 ^ w) := by
  induction lines generalizing acc with
  | nil => simp [smaps_sum, Nat.mod_eq_of_lt hc, Nat.mod_eq_of_lt hd]
  | cons l ls ih =>
    have hM : 0 < 2 ^ w := Nat.two_pow_pos w
    have hl := memstats_line_eq w l acc.1 acc.2
    have h1 : (memstats_line w l acc.1 acc.2).1 < 2 ^ w := by
      rw [hl]; simp only []
      split
      · exact Nat.mod_lt _ hM
      · exact hc
    have h2 : (memstats_line w l acc.1 acc.2).2 < 2 ^ w := by
      rw [hl]; simp only []
      split
      · exact Nat.mod_lt _ hM
      · split
        · exact Nat.mod_lt _ hM
        · exact hd
    rw [List.foldl_cons, ih _ h1 h2, hl]
    simp only [smaps_sum_cons]
    congr 1
    · by_cases h : starts_with key_private_clean l = true
      · simp only [h, if_true]
        rw [Nat.mod_add_mod, Nat.add_assoc]
      · simp [h]
    · by_cases h : starts_with key_private_dirty l = true
      · simp only [h, if_true, starts_with_dirty_swap l h, Bool.false_eq_true, if_false]
        rw [Nat.mod_add_mod]
        congr 1
        omega
      · by_cases h2 : starts_with key_swap l = true
        · simp only [h, h2, if_true, Bool.false_eq_true, if_false]
          rw [Nat.mod_add_mod]
          congr 1
          omega
        · simp [h, h2]

theorem to_ssize_small (w k : Nat) (h : k < 2 ^ (w - 1)) : to_ssize w k = (k : Int) := by
  have hle : 2 ^ (w - 1) ≤ 2 ^ w := Nat.pow_le_pow_right (by norm_num) (Nat.sub_le w 1)
  have hk : k % 2 ^ w = k := Nat.mod_eq_of_lt (by omega)
  simp [to_ssize, hk, h]

/-- The `ssize_t` difference `0 - k` for a `k` that fits an `ssize_t`. -/
theorem ssize_sub_zero_left (w k : Nat) (h : k < 2 ^ (w - 1)) :
    ssize_sub w 0 (k : Int) = -(k : Int) := by
  rcases Nat.eq_zero_or_pos k with hk | hk
  · subst hk
    simp [ssize_sub, to_ssize]
  · have hw : 0 < w := by
      rcases Nat.eq_zero_or_pos w with h0 | h0
      · subst h0; simp at h; omega
      · exact h0
    have hM : 2 ^ w = 2 * 2 ^ (w - 1) := by
      conv_lhs => rw [show w = (w - 1) + 1 by omega]
      rw [pow_succ]; ring
    have e1 : ((0 : Int) - (k : Int)) % (2 : Int) ^ w = ((2 ^ w - k : Nat) : Int) := by
      rw [← Int.add_emod_self]
      have hlt : (0 : Int) - k + 2 ^ w < 2 ^ w := by omega
      have hnn : (0 : Int) ≤ 0 - k + 2 ^ w := by
        have : (k : Int) < 2 ^ w := by
          have : k < 2 ^ w := by omega
          exact_mod_cast this
        omega
      rw [Int.emod_eq_of_lt hnn hlt]
      have : k ≤ 2 ^ w := by omega
      push_cast [Nat.cast_sub this]
      ring
    simp only [ssize_sub, e1, Int.toNat_ofNat]
    have hmod : (2 ^ w - k) % 2 ^ w = 2 ^ w - k := Nat.mod_eq_of_lt (by omega)
    have hnot : ¬ 2 ^ w - k < 2 ^ (w - 1) := by omega
    simp only [to_ssize, hmod, hnot, if_false]
    have : k ≤ 2 ^ w := by omega
    push_cast [Nat.cast_sub this]
    ring

theorem update_process_memstats_gone (w : Nat) (p : monitored_process_t)
    (hc : p.mem_clean = 0) (hd : p.mem_dirty = 0) :
    (update_process_memstats w none p).mem_change = 0
    ∧ (update_process_memstats w none p).mem_clean = 0
    ∧ (update_process_memstats w none p).mem_dirty = 0 := by
  refine ⟨?_, rfl, rfl⟩
  simp only [update_process_memstats, read_memstats, hc, hd, Nat.add_zero, Nat.zero_mod]
  have h := ssize_sub_zero_left w 0 (Nat.two_pow_pos _)
  rw [to_ssize_small w 0 (Nat.two_pow_pos _)]
  simpa using h

theorem update_process_memstats_gone_iterate (w : Nat) (n : Nat) (p : monitored_process_t)
    (hc : p.mem_clean = 0) (hd : p.mem_dirty = 0) :
    (Nat.iterate (update_process_memstats w none) (n + 1) p).mem_change = 0
    ∧ (Nat.iterate (update_process_memstats w none) (n + 1) p).mem_clean = 0
    ∧ (Nat.iterate (update_process_memstats w none) (n + 1) p).mem_dirty = 0 := by
  induction n generalizing p with
  | zero => exact update_process_memstats_gone w p hc hd
  | succ k ih =>
    have h := update_process_memstats_gone w p hc hd
    exact ih (update_process_memstats w none p) h.2.1 h.2.2

/-- One `monitor_pid` call on a registry of fewer than `2 ^ 31` entries
appends the new entry and keeps the invariant. -/
theorem monitor_pid_step (pid2name : Nat → Option (List Char)) (pid : Nat) (r : registry)
    (hinv : registry_inv r) (hcnt : r.mprocs_cnt < 2 ^ 31) (hpid : pid ≠ 0) :
    ∃ r1, monitor_pid pid2name pid r = some r1
      ∧ r1.mprocs = r.mprocs ++ [new_entry pid2name pid]
      ∧ r1.mprocs_cnt = r.mprocs_cnt + 1
      ∧ registry_inv r1 := by
  obtain ⟨hlen, hle, hpol⟩ := hinv
  have htake : r.mprocs.take r.mprocs_cnt = r.mprocs := by
    rw [← hlen]; exact List.take_length _
  have hmod : (r.mprocs_cnt + 1) % 2 ^ 32 = r.mprocs_cnt + 1 := Nat.mod_eq_of_lt (by omega)
  simp only [monitor_pid, hpid, if_false, htake, hmod]
  refine ⟨_, rfl, rfl, rfl, ?_⟩
  simp only [registry_inv, List.length_append, List.length_singleton, hlen, true_and]
  by_cases hfull : r.mprocs_cap ≤ r.mprocs_cnt
  · have heq : r.mprocs_cap = r.mprocs_cnt := Nat.le_antisymm hfull hle
    have hm2 : (r.mprocs_cap * 2) % 2 ^ 32 = r.mprocs_cap * 2 := Nat.mod_eq_of_lt (by omega)
    simp only [hfull, if_true, hm2]
    rcases hpol with ⟨h0, hc0⟩ | ⟨j, hj, _⟩
    · simp only [hc0, h0]
      exact ⟨by norm_num, Or.inr ⟨0, by norm_num, by intro h; omega⟩⟩
    · have hpos : 0 < 2 ^ j := Nat.two_pow_pos j
      have h4 : ¬ r.mprocs_cap * 2 < 4 := by omega
      simp only [h4, if_false]
      refine ⟨by omega, Or.inr ⟨j + 1, by rw [hj, pow_succ]; ring, ?_⟩⟩
      intro _
      simp only [Nat.add_sub_cancel]
      omega
  · simp only [hfull, if_false]
    refine ⟨by omega, ?_⟩
    rcases hpol with ⟨h0, hc0⟩ | ⟨j, hj, hprev⟩
    · omega
    · exact Or.inr ⟨j, hj, fun h => by have := hprev h; omega⟩

theorem monitor_pids_run (pid2name : Nat → Option (List Char)) (pids : List Nat) (r : registry)
    (hinv : registry_inv r) (hcnt : r.mprocs_cnt + pids.length ≤ 2 ^ 31)
    (hnz : ∀ p ∈ pids, p ≠ 0) :
    ∃ r1, monitor_pids pid2name pids r = some r1
      ∧ r1.mprocs = r.mprocs ++ pids.map (new_entry pid2name)
      ∧ r1.mprocs_cnt = r.mprocs_cnt + pids.length
      ∧ registry_inv r1 := by
  induction pids generalizing r with
  | nil => exact ⟨r, rfl, by simp, by simp, hinv⟩
  | cons p ps ih =>
    simp only [List.length_cons] at hcnt
    obtain ⟨r1, h1, hm, hc, hi⟩ :=
      monitor_pid_step pid2name p r hinv (by omega) (hnz p (List.mem_cons_self _ _))
    obtain ⟨r2, h2, hm2, hc2, hi2⟩ :=
      ih r1 hi (by omega) (fun q hq => hnz q (List.mem_cons_of_mem _ hq))
    refine ⟨r2, by simp [monitor_pids, h1, h2], ?_, ?_, hi2⟩
    · rw [hm2, hm]; simp
    · rw [hc2, hc]; simp only [List.length_cons]; omega

theorem registry_inv_empty : registry_inv registry_empty :=
  ⟨rfl, le_refl _, Or.inl ⟨rfl, rfl⟩⟩

/-- Truncating a `size_t` difference to `unsigned` is the 32-bit difference
of the truncated operands, when `size_t` has at least 32 bits. -/
theorem to_unsigned_size_sub (w a c : Nat) (hw : 32 ≤ w) (hc : c < 2 ^ w) :
    to_unsigned (size_sub w a c) = (to_unsigned a + 2 ^ 32 - to_unsigned c) % 2 ^ 32 := by
  have hk : 2 ^ w = 2 ^ 32 * 2 ^ (w - 32) := by
    rw [← pow_add]; congr 1; omega
  have hdvd : 2 ^ 32 ∣ 2 ^ w := ⟨2 ^ (w - 32), hk⟩
  unfold to_unsigned size_sub
  rw [Nat.mod_mod_of_dvd _ hdvd]
  generalize 2 ^ (w - 32) = k at hk
  rw [hk] at hc ⊢
  norm_num at hc ⊢
  omega

theorem getline_bytes_no_lf (s : List Char) (h : ∀ c ∈ s, c ≠ LF) : getline_bytes s = s := by
  induction s with
  | nil => rfl
  | cons c cs ih =>
    have hc : c ≠ LF := h c (List.mem_cons_self _ _)
    simp only [getline_bytes, hc, if_false]
    rw [ih (fun x hx => h x (List.mem_cons_of_mem _ hx))]

theorem cstr_append_nul (a t : List Char) (h : ∀ c ∈ a, c ≠ NUL) : cstr (a ++ NUL :: t) = a := by
  induction a with
  | nil => simp [cstr]
  | cons c cs ih =>
    have hc : c ≠ NUL := h c (List.mem_cons_self _ _)
    have e := ih (fun x hx => h x (List.mem_cons_of_mem _ hx))
    show cstr (c :: (cs ++ NUL :: t)) = c :: cs
    simp only [cstr, hc, if_false, e]

theorem cmdline_bytes_eq_join (a : List Char) (rest : List (List Char)) :
    cmdline_bytes (a :: rest) = join_with NUL (a :: rest) ++ [NUL] := by
  induction rest generalizing a with
  | nil => simp [cmdline_bytes, join_with]
  | cons b bs ih =>
    simp only [cmdline_bytes, join_with, List.append_assoc, List.cons_append]
    rw [← ih b]
    simp [cmdline_bytes]

theorem map_join_nul (args : List (List Char)) (h : ∀ a ∈ args, ∀ c ∈ a, c ≠ NUL) :
    (join_with NUL args).map (fun c => if c = NUL then ' ' else c) = join_with ' ' args := by
  have hid : ∀ a : List Char, (∀ c ∈ a, c ≠ NUL) →
      a.map (fun c => if c = NUL then ' ' else c) = a := by
    intro a ha
    induction a with
    | nil => rfl
    | cons c cs ih =>
      have hc : c ≠ NUL := ha c (List.mem_cons_self _ _)
      simp only [List.map_cons, hc, if_false]
      rw [ih (fun x hx => ha x (List.mem_cons_of_mem _ hx))]
  induction args with
  | nil => rfl
  | cons a rest ih =>
    cases rest with
    | nil => simpa [join_with] using hid a (h a (List.mem_cons_self _ _))
    | cons b bs =>
      simp only [join_with, List.map_append, List.map_cons, if_true]
      rw [hid a (h a (List.mem_cons_self _ _)), ih (fun x hx => h x (List.mem_cons_of_mem _ hx))]

theorem mem_join_with (sep : Char) (args : List (List Char)) (c : Char)
    (h : c ∈ join_with sep args) : c = sep ∨ ∃ a ∈ args, c ∈ a := by
  induction args with
  | nil => simp [join_with] at h
  | cons a rest ih =>
    cases rest with
    | nil => exact Or.inr ⟨a, List.mem_cons_self _ _, by simpa [join_with] using h⟩
    | cons b bs =>
      simp only [join_with, List.mem_append, List.mem_cons] at h
      rcases h with h | h | h
      · exact Or.inr ⟨a, List.mem_cons_self _ _, h⟩
      · exact Or.inl h
      · rcases ih h with h1 | ⟨x, hx, hc⟩
        · exact Or.inl h1
        · exact Or.inr ⟨x, List.mem_cons_of_mem _ hx, hc⟩

/-- Without a `/` in argument 0, `cmdline` returns the arguments joined with
single spaces, whatever lies behind the terminating NUL. -/
theorem cmdline_no_slash (a0 : List Char) (rest : List (List Char)) (slack : List Char)
    (hargs : ∀ a ∈ a0 :: rest, ∀ c ∈ a, c ≠ NUL ∧ c ≠ LF)
    (h0 : ∀ c ∈ a0, c ≠ '/') :
    cmdline (some (cmdline_bytes (a0 :: rest))) slack
      = cmdline_result.name (display_name (a0 :: rest)) := by
  have hnul : ∀ a ∈ a0 :: rest, ∀ c ∈ a, c ≠ NUL := fun a ha c hc => (hargs a ha c hc).1
  have hb := cmdline_bytes_eq_join a0 rest
  have hlf : ∀ c ∈ cmdline_bytes (a0 :: rest), c ≠ LF := by
    intro c hc
    rw [hb, List.mem_append] at hc
    rcases hc with hc | hc
    · rcases mem_join_with NUL _ c hc with h1 | ⟨a, ha, hca⟩
      · subst h1; decide
      · exact (hargs a ha c hca).2
    · simp only [List.mem_singleton] at hc
      subst hc; decide
  have hcs : cstr (cmdline_bytes (a0 :: rest) ++ NUL :: slack) = a0 := by
    simp only [cmdline_bytes, List.append_assoc, List.cons_append]
    exact cstr_append_nul a0 _ (hnul a0 (List.mem_cons_self _ _))
  have hbase : basename a0 = a0 := by
    simp [basename, strrchr_none a0 '/' h0]
  have hlen : ¬ (cmdline_bytes (a0 :: rest)).length < 1 := by
    rw [hb]; simp
  simp only [cmdline, getline_bytes_no_lf _ hlf, hlen, if_false, hcs, strrchr_none a0 '/' h0,
    display_name, hbase]
  have hn : (((cmdline_bytes (a0 :: rest)).length : Int) - 1).toNat
      = (join_with NUL (a0 :: rest)).length := by
    rw [hb]; simp
  rw [hn, hb]
  simp only [nul_to_space, List.append_assoc, List.take_left', List.drop_left']
  rw [map_join_nul _ hnul]
  apply congrArg
  apply cstr_append_nul
  intro c hc
  rcases mem_join_with ' ' _ c hc with h1 | ⟨a, ha, hca⟩
  · subst h1; decide
  · exact hnul a ha c hca

theorem cstr_append_of_no_nul (a t : List Char) (h : ∀ c ∈ a, c ≠ NUL) :
    cstr (a ++ t) = a ++ cstr t := by
  induction a with
  | nil => rfl
  | cons c cs ih =>
    have hc : c ≠ NUL := h c (List.mem_cons_self _ _)
    have e := ih (fun x hx => h x (List.mem_cons_of_mem _ hx))
    show cstr (c :: (cs ++ t)) = c :: (cs ++ cstr t)
    simp only [cstr, hc, if_false, e]

/-- With a `/` in argument 0 and at least one byte behind the terminating
NUL, `cmdline` returns the display name followed by two spaces and by
whatever C string starts at that byte. -/
theorem cmdline_slash (dir base : List Char) (rest : List (List Char)) (c : Char)
    (cs : List Char)
    (hargs : ∀ a ∈ (dir ++ '/' :: base) :: rest, ∀ x ∈ a, x ≠ NUL ∧ x ≠ LF)
    (hbase : ∀ x ∈ base, x ≠ '/') :
    ∃ g, cmdline (some (cmdline_bytes ((dir ++ '/' :: base) :: rest))) (c :: cs)
      = cmdline_result.name (display_name ((dir ++ '/' :: base) :: rest) ++ ' ' :: ' ' :: g) := by
  have hnul0 : ∀ x ∈ dir ++ '/' :: base, x ≠ NUL :=
    fun x hx => (hargs _ (List.mem_cons_self _ _) x hx).1
  have hnulb : ∀ a ∈ base :: rest, ∀ x ∈ a, x ≠ NUL := by
    intro a ha x hx
    rcases List.mem_cons.mp ha with h | h
    · subst h
      exact hnul0 x (by simp [hx])
    · exact (hargs a (List.mem_cons_of_mem _ h) x hx).1
  have hb := cmdline_bytes_eq_join (dir ++ '/' :: base) rest
  have hlf : ∀ x ∈ cmdline_bytes ((dir ++ '/' :: base) :: rest), x ≠ LF := by
    intro x hx
    rw [hb, List.mem_append] at hx
    rcases hx with hx | hx
    · rcases mem_join_with NUL _ x hx with h1 | ⟨a, ha, hxa⟩
      · subst h1; decide
      · exact (hargs a ha x hxa).2
    · simp only [List.mem_singleton] at hx
      subst hx; decide
  have hcs : cstr (cmdline_bytes ((dir ++ '/' :: base) :: rest) ++ NUL :: c :: cs)
      = dir ++ '/' :: base := by
    simp only [cmdline_bytes, List.append_assoc, List.cons_append]
    have := cstr_append_nul (dir ++ '/' :: base) (cmdline_bytes rest ++ NUL :: c :: cs) hnul0
    simpa using this
  have hbn : basename (dir ++ '/' :: base) = base := by
    simp [basename, strrchr_last dir base '/' hbase]
  have hlen : ¬ (cmdline_bytes ((dir ++ '/' :: base) :: rest)).length < 1 := by
    rw [hb]; simp
  -- the buffer, split at the byte behind the last `/` of argument 0
  have hline : cmdline_bytes ((dir ++ '/' :: base) :: rest) ++ NUL :: c :: cs
      = (dir ++ ['/']) ++ ((cmdline_bytes (base :: rest) ++ [NUL, c]) ++ cs) := by
    simp [cmdline_bytes]
  have hR : (cmdline_bytes ((dir ++ '/' :: base) :: rest)).length
      = dir.length + 1 + (cmdline_bytes (base :: rest)).length := by
    simp [cmdline_bytes]; omega
  refine ⟨cstr (c :: (cmdline_bytes ((dir ++ '/' :: base) :: rest) ++ NUL :: c :: cs).drop
    ((cmdline_bytes (base :: rest)).length + 2)), ?_⟩
  simp only [cmdline, getline_bytes_no_lf _ hlf, hlen, if_false, hcs,
    strrchr_last dir base '/' hbase, display_name, hbn]
  have hk : (dir ++ '/' :: base).length - ('/' :: base).length = dir.length := by
    simp
  have hn : (((cmdline_bytes ((dir ++ '/' :: base) :: rest)).length : Int)
      - (((dir.length : Nat) : Int) - 1)).toNat = (cmdline_bytes (base :: rest)).length + 2 := by
    rw [hR]; omega
  have hn1 : (((cmdline_bytes ((dir ++ '/' :: base) :: rest)).length : Int)
      - (((dir.length : Nat) : Int) - 1) - 1).toNat = (cmdline_bytes (base :: rest)).length + 1 := by
    rw [hR]; omega
  have hfit : ¬ (cmdline_bytes ((dir ++ '/' :: base) :: rest) ++ NUL :: c :: cs).length
      < dir.length + 1 + ((cmdline_bytes (base :: rest)).length + 2) := by
    simp only [List.length_append, List.length_cons, hR]; omega
  rw [hk, hn, hn1]
  simp only [hfit, if_false]
  have hdrop : (cmdline_bytes ((dir ++ '/' :: base) :: rest) ++ NUL :: c :: cs).drop
      (dir.length + 1) = (cmdline_bytes (base :: rest) ++ [NUL, c]) ++ cs := by
    rw [hline]
    exact List.drop_left' (by simp)
  have htake : ((cmdline_bytes (base :: rest) ++ [NUL, c]) ++ cs).take
      ((cmdline_bytes (base :: rest)).length + 2) = cmdline_bytes (base :: rest) ++ [NUL, c] :=
    List.take_left' (by simp)
  rw [hdrop, htake]
  have hsplit : ∀ D : List Char, cmdline_bytes (base :: rest) ++ [NUL, c] ++ D
      = (cmdline_bytes (base :: rest) ++ [NUL]) ++ (c :: D) := by
    intro D; simp
  rw [hsplit]
  simp only [nul_to_space]
  rw [List.take_left' (by simp), List.drop_left' (by simp)]
  rw [cmdline_bytes_eq_join base rest]
  simp only [List.map_append, List.map_cons, List.map_nil, if_true, map_join_nul _ hnulb]
  apply congrArg
  have hns : ∀ x ∈ join_with ' ' (base :: rest) ++ [' '] ++ [' '], x ≠ NUL := by
    intro x hx
    simp only [List.mem_append, List.mem_singleton] at hx
    rcases hx with (hx | hx) | hx
    · rcases mem_join_with ' ' _ x hx with h1 | ⟨a, ha, hxa⟩
      · subst h1; decide
      · exact hnulb a ha x hxa
    · subst hx; decide
    · subst hx; decide
  rw [cstr_append_of_no_nul _ _ hns]
  simp

/-- With a `/` in argument 0 and nothing behind the terminating NUL,
`memmove` reads past the end of the buffer. -/
theorem cmdline_slash_overrun (dir base : List Char) (rest : List (List Char))
    (hargs : ∀ a ∈ (dir ++ '/' :: base) :: rest, ∀ x ∈ a, x ≠ NUL ∧ x ≠ LF)
    (hbase : ∀ x ∈ base, x ≠ '/') :
    cmdline (some (cmdline_bytes ((dir ++ '/' :: base) :: rest))) []
      = cmdline_result.overrun := by
  have hnul0 : ∀ x ∈ dir ++ '/' :: base, x ≠ NUL :=
    fun x hx => (hargs _ (List.mem_cons_self _ _) x hx).1
  have hb := cmdline_bytes_eq_join (dir ++ '/' :: base) rest
  have hlf : ∀ x ∈ cmdline_bytes ((dir ++ '/' :: base) :: rest), x ≠ LF := by
    intro x hx
    rw [hb, List.mem_append] at hx
    rcases hx with hx | hx
    · rcases mem_join_with NUL _ x hx with h1 | ⟨a, ha, hxa⟩
      · subst h1; decide
      · exact (hargs a ha x hxa).2
    · simp only [List.mem_singleton] at hx
      subst hx; decide
  have hcs : cstr (cmdline_bytes ((dir ++ '/' :: base) :: rest) ++ [NUL])
      = dir ++ '/' :: base := by
    simp only [cmdline_bytes, List.append_assoc, List.cons_append]
    have := cstr_append_nul (dir ++ '/' :: base) (cmdline_bytes rest ++ [NUL]) hnul0
    simpa using this
  have hlen : ¬ (cmdline_bytes ((dir ++ '/' :: base) :: rest)).length < 1 := by
    rw [hb]; simp
  have hR : (cmdline_bytes ((dir ++ '/' :: base) :: rest)).length
      = dir.length + 1 + (cmdline_bytes (base :: rest)).length := by
    simp [cmdline_bytes]; omega
  have hk : (dir ++ '/' :: base).length - ('/' :: base).length = dir.length := by
    simp
  have hn : (((cmdline_bytes ((dir ++ '/' :: base) :: rest)).length : Int)
      - (((dir.length : Nat) : Int) - 1)).toNat = (cmdline_bytes (base :: rest)).length + 2 := by
    rw [hR]; omega
  have hfit : (cmdline_bytes ((dir ++ '/' :: base) :: rest) ++ [NUL]).length
      < dir.length + 1 + ((cmdline_bytes (base :: rest)).length + 2) := by
    simp only [List.length_append, List.length_cons, List.length_nil, hR]; omega
  simp only [cmdline, getline_bytes_no_lf _ hlf, hlen, if_false, hcs,
    strrchr_last dir base '/' hbase, hk, hn, hfit, if_true]

/-- With a `/` in argument 0, `cmdline` never returns the display name,
whatever lies behind the terminating NUL. -/
theorem cmdline_slash_ne (dir base : List Char) (rest : List (List Char)) (slack : List Char)
    (hargs : ∀ a ∈ (dir ++ '/' :: base) :: rest, ∀ x ∈ a, x ≠ NUL ∧ x ≠ LF)
    (hbase : ∀ x ∈ base, x ≠ '/') :
    cmdline (some (cmdline_bytes ((dir ++ '/' :: base) :: rest))) slack
      ≠ cmdline_result.name (display_name ((dir ++ '/' :: base) :: rest)) := by
  cases slack with
  | nil =>
    rw [cmdline_slash_overrun dir base rest hargs hbase]
    intro h; cases h
  | cons c cs =>
    obtain ⟨g, hg⟩ := cmdline_slash dir base rest c cs hargs hbase
    rw [hg]
    intro h
    have hl := congrArg List.length (cmdline_result.name.inj h)
    simp at hl

theorem round_half_even_cases (q : ℚ) :
    round_half_even q = ⌊q⌋ ∨ round_half_even q = ⌊q⌋ + 1 := by
  unfold round_half_even
  split_ifs <;> simp

theorem round_half_even_bounds (q : ℚ) :
    q - 1 / 2 ≤ (round_half_even q : ℚ) ∧ (round_half_even q : ℚ) ≤ q + 1 / 2 := by
  have h1 : ((⌊q⌋ : ℤ) : ℚ) ≤ q := Int.floor_le q
  have h2 : q < ((⌊q⌋ : ℤ) : ℚ) + 1 := Int.lt_floor_add_one q
  unfold round_half_even
  split_ifs with ha hb hc
  · constructor <;> linarith
  · push_cast; constructor <;> linarith
  · have : q - ⌊q⌋ = 1 / 2 := le_antisymm (not_lt.mp hb) (not_lt.mp ha)
    constructor <;> linarith
  · have : q - ⌊q⌋ = 1 / 2 := le_antisymm (not_lt.mp hb) (not_lt.mp ha)
    push_cast; constructor <;> linarith

theorem round_half_even_eq_of_close (q : ℚ) (n : ℤ) (h : |q - n| < 1 / 2) :
    round_half_even q = n := by
  have hb := round_half_even_bounds q
  have h1 := abs_lt.mp h
  have hlt : ((round_half_even q - n : ℤ) : ℚ) < 1 := by push_cast; linarith [h1.1, h1.2, hb.2]
  have hgt : (-1 : ℚ) < ((round_half_even q - n : ℤ) : ℚ) := by
    push_cast; linarith [h1.1, h1.2, hb.1]
  have h3 : round_half_even q - n < 1 := by exact_mod_cast hlt
  have h4 : -1 < round_half_even q - n := by exact_mod_cast hgt
  omega

theorem round_half_even_int (n : ℤ) : round_half_even (n : ℚ) = n :=
  round_half_even_eq_of_close _ n (by simp)

theorem round_half_even_mono {q r : ℚ} (h : q ≤ r) : round_half_even q ≤ round_half_even r := by
  have hf : ⌊q⌋ ≤ ⌊r⌋ := Int.floor_mono h
  rcases lt_or_eq_of_le hf with hlt | heq
  · have h1 : round_half_even q ≤ ⌊q⌋ + 1 := by
      rcases round_half_even_cases q with e | e <;> omega
    have h2 : ⌊r⌋ ≤ round_half_even r := by
      rcases round_half_even_cases r with e | e <;> omega
    omega
  · unfold round_half_even
    rw [← heq]
    have hfr : q - ⌊q⌋ ≤ r - ⌊q⌋ := by linarith
    split_ifs <;> first | omega | (exfalso; linarith)

theorem log2_bracket {x : ℚ} (hx : 0 < x) :
    (2 : ℚ) ^ Int.log 2 x ≤ x ∧ x < (2 : ℚ) ^ (Int.log 2 x + 1) := by
  have h1 : ((2 : ℕ) : ℚ) ^ Int.log 2 x ≤ x := Int.zpow_log_le_self (by norm_num) hx
  have h2 : x < ((2 : ℕ) : ℚ) ^ (Int.log 2 x + 1) := Int.lt_zpow_succ_log_self (by norm_num) x
  simpa using And.intro h1 h2

theorem log2_eq_of_bracket {x : ℚ} {e : ℤ} (h1 : (2 : ℚ) ^ e ≤ x) (h2 : x < (2 : ℚ) ^ (e + 1)) :
    Int.log 2 x = e := by
  have hx : 0 < x := lt_of_lt_of_le (zpow_pos (by norm_num) e) h1
  have h3 : e ≤ Int.log 2 x := by
    apply (Int.zpow_le_iff_le_log (by norm_num : 1 < 2) hx).mp
    simpa using h1
  have h4 : Int.log 2 x < e + 1 := by
    apply (Int.lt_zpow_iff_log_lt (by norm_num : 1 < 2) hx).mp
    simpa using h2
  omega

/-- The significand `round_f32` forms from a positive value: between `2 ^ 23`
and `2 ^ 24`. -/
theorem significand_bounds {x : ℚ} (hx : 0 < x) :
    (2 : ℤ) ^ 23 ≤ round_half_even (x / 2 ^ (Int.log 2 x - 23))
    ∧ round_half_even (x / 2 ^ (Int.log 2 x - 23)) ≤ (2 : ℤ) ^ 24 := by
  obtain ⟨h1, h2⟩ := log2_bracket hx
  have hu : (0 : ℚ) < 2 ^ (Int.log 2 x - 23) := zpow_pos (by norm_num) _
  have e1 : (2 : ℚ) ^ Int.log 2 x = 2 ^ 23 * 2 ^ (Int.log 2 x - 23) := by
    rw [show Int.log 2 x = 23 + (Int.log 2 x - 23) by ring, zpow_add₀ (by norm_num)]
    norm_num
  have e2 : (2 : ℚ) ^ (Int.log 2 x + 1) = 2 ^ 24 * 2 ^ (Int.log 2 x - 23) := by
    rw [show Int.log 2 x + 1 = 24 + (Int.log 2 x - 23) by ring, zpow_add₀ (by norm_num)]
    norm_num
  have hlo : (((2 : ℤ) ^ 23 : ℤ) : ℚ) ≤ x / 2 ^ (Int.log 2 x - 23) := by
    rw [le_div_iff₀ hu]; push_cast; linarith
  have hhi : x / 2 ^ (Int.log 2 x - 23) ≤ (((2 : ℤ) ^ 24 : ℤ) : ℚ) := by
    rw [div_le_iff₀ hu]; push_cast; linarith
  have m1 := round_half_even_mono hlo
  have m2 := round_half_even_mono hhi
  rw [round_half_even_int] at m1 m2
  exact ⟨m1, m2⟩

theorem round_f32_nonneg (x : ℚ) : 0 ≤ round_f32 x := by
  unfold round_f32
  split_ifs with h
  · exact le_refl _
  · have hx : 0 < x := not_le.mp h
    have hm := (significand_bounds hx).1
    have hq : (0 : ℚ) ≤ (round_half_even (x / 2 ^ (Int.log 2 x - 23)) : ℚ) := by
      have : (0 : ℤ) ≤ round_half_even (x / 2 ^ (Int.log 2 x - 23)) := by
        have : (0 : ℤ) ≤ 2 ^ 23 := by norm_num
        omega
      exact_mod_cast this
    exact mul_nonneg hq (le_of_lt (zpow_pos (by norm_num) _))

/-- `round_f32` stays within the binade of its argument. -/
theorem round_f32_binade {x : ℚ} (hx : 0 < x) :
    (2 : ℚ) ^ Int.log 2 x ≤ round_f32 x ∧ round_f32 x ≤ (2 : ℚ) ^ (Int.log 2 x + 1) := by
  obtain ⟨m1, m2⟩ := significand_bounds hx
  have hu : (0 : ℚ) < 2 ^ (Int.log 2 x - 23) := zpow_pos (by norm_num) _
  have e1 : (2 : ℚ) ^ Int.log 2 x = 2 ^ 23 * 2 ^ (Int.log 2 x - 23) := by
    rw [show Int.log 2 x = 23 + (Int.log 2 x - 23) by ring, zpow_add₀ (by norm_num)]
    norm_num
  have e2 : (2 : ℚ) ^ (Int.log 2 x + 1) = 2 ^ 24 * 2 ^ (Int.log 2 x - 23) := by
    rw [show Int.log 2 x + 1 = 24 + (Int.log 2 x - 23) by ring, zpow_add₀ (by norm_num)]
    norm_num
  have q1 : ((2 : ℚ) ^ 23) ≤ (round_half_even (x / 2 ^ (Int.log 2 x - 23)) : ℚ) := by
    exact_mod_cast m1
  have q2 : (round_half_even (x / 2 ^ (Int.log 2 x - 23)) : ℚ) ≤ (2 : ℚ) ^ 24 := by
    exact_mod_cast m2
  have hnot : ¬ x ≤ 0 := not_le.mpr hx
  simp only [round_f32, hnot, if_false]
  rw [e1, e2]
  exact ⟨mul_le_mul_of_nonneg_right q1 (le_of_lt hu), mul_le_mul_of_nonneg_right q2 (le_of_lt hu)⟩

/-- Rounding to binary32 is monotone. -/
theorem round_f32_mono {x y : ℚ} (h : x ≤ y) : round_f32 x ≤ round_f32 y := by
  by_cases hx : x ≤ 0
  · have : round_f32 x = 0 := by simp [round_f32, hx]
    rw [this]; exact round_f32_nonneg y
  · have hx0 : 0 < x := not_le.mp hx
    have hy0 : 0 < y := lt_of_lt_of_le hx0 h
    have hlog : Int.log 2 x ≤ Int.log 2 y := Int.log_mono_right hx0 h
    rcases lt_or_eq_of_le hlog with hlt | heq
    · have b1 := (round_f32_binade hx0).2
      have b2 := (round_f32_binade hy0).1
      have : (2 : ℚ) ^ (Int.log 2 x + 1) ≤ 2 ^ Int.log 2 y :=
        zpow_le_zpow_right₀ (by norm_num) (by omega)
      linarith
    · have hy : ¬ y ≤ 0 := not_le.mpr hy0
      simp only [round_f32, hx, hy, if_false, ← heq]
      have hu : (0 : ℚ) < 2 ^ (Int.log 2 x - 23) := zpow_pos (by norm_num) _
      have hdiv : x / 2 ^ (Int.log 2 x - 23) ≤ y / 2 ^ (Int.log 2 x - 23) :=
        div_le_div_of_nonneg_right h (le_of_lt hu)
      have hm := round_half_even_mono hdiv
      have hq : (round_half_even (x / 2 ^ (Int.log 2 x - 23)) : ℚ)
          ≤ (round_half_even (y / 2 ^ (Int.log 2 x - 23)) : ℚ) := by exact_mod_cast hm
      exact mul_le_mul_of_nonneg_right hq (le_of_lt hu)

/-- Evaluation of `round_f32`: the binade `e` of `x` and the integer `n`
nearest to `x / 2 ^ (e - 23)` give the value `n * 2 ^ (e - 23)`. -/
theorem round_f32_eval (x : ℚ) (e n : ℤ) (h1 : (2 : ℚ) ^ e ≤ x) (h2 : x < (2 : ℚ) ^ (e + 1))
    (h3 : |x / 2 ^ (e - 23) - n| < 1 / 2) :
    round_f32 x = (n : ℚ) * 2 ^ (e - 23) := by
  have hx : 0 < x := lt_of_lt_of_le (zpow_pos (by norm_num) e) h1
  have hnot : ¬ x ≤ 0 := not_le.mpr hx
  have hlog := log2_eq_of_bracket h1 h2
  simp only [round_f32, hnot, if_false, hlog]
  rw [round_half_even_eq_of_close _ n h3]

/-- The relative error of one rounding to binary32 is at most `2 ^ -24`. -/
theorem round_f32_error {x : ℚ} (hx : 0 < x) :
    x * (1 - 1 / 2 ^ 24) ≤ round_f32 x ∧ round_f32 x ≤ x * (1 + 1 / 2 ^ 24) := by
  obtain ⟨h1, _⟩ := log2_bracket hx
  have hu : (0 : ℚ) < 2 ^ (Int.log 2 x - 23) := zpow_pos (by norm_num) _
  have e1 : (2 : ℚ) ^ Int.log 2 x = 2 ^ 23 * 2 ^ (Int.log 2 x - 23) := by
    rw [show Int.log 2 x = 23 + (Int.log 2 x - 23) by ring, zpow_add₀ (by norm_num)]
    norm_num
  have hb := round_half_even_bounds (x / 2 ^ (Int.log 2 x - 23))
  have hnot : ¬ x ≤ 0 := not_le.mpr hx
  simp only [round_f32, hnot, if_false]
  have hxu : x / 2 ^ (Int.log 2 x - 23) * 2 ^ (Int.log 2 x - 23) = x :=
    div_mul_cancel₀ x (ne_of_gt hu)
  have lo := mul_le_mul_of_nonneg_right hb.1 (le_of_lt hu)
  have hi := mul_le_mul_of_nonneg_right hb.2 (le_of_lt hu)
  rw [sub_mul, hxu] at lo
  rw [add_mul, hxu] at hi
  rw [e1] at h1
  constructor
  · nlinarith
  · nlinarith

theorem round_f32_one : round_f32 1 = 1 := by
  have h := round_f32_eval 1 0 (2 ^ 23) (by norm_num) (by norm_num) (by norm_num)
  rw [h]; norm_num

theorem round_f32_hundred : round_f32 100 = 100 := by
  have h := round_f32_eval 100 6 13107200 (by norm_num) (by norm_num) (by norm_num)
  rw [h]; norm_num

theorem round_f32_zero : round_f32 0 = 0 := by
  simp [round_f32]

/-- The conversion of a positive integer to `float` is at least 1. -/
theorem round_f32_nat_pos {n : Nat} (h : 0 < n) : 1 ≤ round_f32 (n : ℚ) := by
  have h1 : (1 : ℚ) ≤ (n : ℚ) := by exact_mod_cast h
  have := round_f32_mono h1
  rwa [round_f32_one] at this

/-- `cpu_usage` when the busy ticks `total - idle` (modulo `2 ^ 32`) reach the
total: the quotient is at least 1 and the result is 100. -/
theorem cpu_usage_saturated (T idle : Nat) (hT : T ≠ 0) (hi : idle ≠ 0)
    (hbusy : T ≤ (T + 2 ^ 32 - idle) % 2 ^ 32) : cpu_usage T idle = 100 := by
  have hTpos : 0 < T := Nat.pos_of_ne_zero hT
  have hb1 : (1 : ℚ) ≤ round_f32 (T : ℚ) := round_f32_nat_pos hTpos
  have hbq : ((T : Nat) : ℚ) ≤ (((T + 2 ^ 32 - idle) % 2 ^ 32 : Nat) : ℚ) := by
    exact_mod_cast hbusy
  have hab := round_f32_mono hbq
  have hq : (1 : ℚ) ≤ round_f32 (((T + 2 ^ 32 - idle) % 2 ^ 32 : Nat) : ℚ) / round_f32 (T : ℚ) := by
    rw [le_div_iff₀ (by linarith)]; linarith
  have hq1 := round_f32_mono hq
  rw [round_f32_one] at hq1
  have hp : (100 : ℚ) ≤ 100 * round_f32
      (round_f32 (((T + 2 ^ 32 - idle) % 2 ^ 32 : Nat) : ℚ) / round_f32 (T : ℚ)) := by linarith
  have hr := round_f32_mono hp
  rw [round_f32_hundred] at hr
  simp only [cpu_usage, hT, hi, if_false]
  split_ifs with hgt
  · rfl
  · exact le_antisymm (not_lt.mp hgt) hr

/-- `cpu_usage` when the busy ticks `total - idle` (modulo `2 ^ 32`) stay
below the total: the clamp does not act, and the result is the rounded
product of 100 and the rounded quotient of the two converted counts. -/
theorem cpu_usage_value (T idle : Nat) (hT : T ≠ 0) (hi : idle ≠ 0)
    (hbusy : (T + 2 ^ 32 - idle) % 2 ^ 32 ≤ T) :
    cpu_usage T idle = round_f32 (100 * round_f32
      (round_f32 (((T + 2 ^ 32 - idle) % 2 ^ 32 : Nat) : ℚ) / round_f32 (T : ℚ))) := by
  have hTpos : 0 < T := Nat.pos_of_ne_zero hT
  have hb1 : (1 : ℚ) ≤ round_f32 (T : ℚ) := round_f32_nat_pos hTpos
  have hbq : (((T + 2 ^ 32 - idle) % 2 ^ 32 : Nat) : ℚ) ≤ ((T : Nat) : ℚ) := by
    exact_mod_cast hbusy
  have hab := round_f32_mono hbq
  have hq : round_f32 (((T + 2 ^ 32 - idle) % 2 ^ 32 : Nat) : ℚ) / round_f32 (T : ℚ) ≤ 1 := by
    rw [div_le_iff₀ (by linarith)]; linarith
  have hq1 := round_f32_mono hq
  rw [round_f32_one] at hq1
  have hp : 100 * round_f32
      (round_f32 (((T + 2 ^ 32 - idle) % 2 ^ 32 : Nat) : ℚ) / round_f32 (T : ℚ)) ≤ 100 := by
    linarith
  have hr := round_f32_mono hp
  rw [round_f32_hundred] at hr
  simp only [cpu_usage, hT, hi, if_false]
  rw [if_neg (not_lt.mpr hr)]

/-- Four roundings to binary32 keep `100 * (d / T)` within a factor
`1 ± 2 ^ -21`. -/
theorem percent_rounding_error (d T : Nat) (hT : 0 < T) :
    100 * (d : ℚ) / (T : ℚ) * (1 - 1 / 2 ^ 21)
        ≤ round_f32 (100 * round_f32 (round_f32 (d : ℚ) / round_f32 (T : ℚ)))
    ∧ round_f32 (100 * round_f32 (round_f32 (d : ℚ) / round_f32 (T : ℚ)))
        ≤ 100 * (d : ℚ) / (T : ℚ) * (1 + 1 / 2 ^ 21) := by
  have hTq : (0 : ℚ) < (T : ℚ) := by exact_mod_cast hT
  rcases Nat.eq_zero_or_pos d with hd | hd
  · subst hd
    simp [round_f32_zero]
  · have hdq : (0 : ℚ) < (d : ℚ) := by exact_mod_cast hd
    obtain ⟨a1, a2⟩ := round_f32_error hdq
    obtain ⟨b1, b2⟩ := round_f32_error hTq
    have ha : (0 : ℚ) < round_f32 (d : ℚ) := by linarith [round_f32_nat_pos hd]
    have hb : (0 : ℚ) < round_f32 (T : ℚ) := by linarith [round_f32_nat_pos hT]
    have hq : (0 : ℚ) < round_f32 (d : ℚ) / round_f32 (T : ℚ) := div_pos ha hb
    obtain ⟨q1, q2⟩ := round_f32_error hq
    have hfq : (0 : ℚ) < round_f32 (round_f32 (d : ℚ) / round_f32 (T : ℚ)) := by
      have : (0 : ℚ) < round_f32 (d : ℚ) / round_f32 (T : ℚ) * (1 - 1 / 2 ^ 24) :=
        mul_pos hq (by norm_num)
      linarith
    have hp : (0 : ℚ) < 100 * round_f32 (round_f32 (d : ℚ) / round_f32 (T : ℚ)) := by linarith
    obtain ⟨r1, r2⟩ := round_f32_error hp
    -- bounds on the exact quotient of the two converted counts
    have hX : (0 : ℚ) < (d : ℚ) / (T : ℚ) := div_pos hdq hTq
    have qlo : (d : ℚ) / (T : ℚ) * ((1 - 1 / 2 ^ 24) / (1 + 1 / 2 ^ 24))
        ≤ round_f32 (d : ℚ) / round_f32 (T : ℚ) := by
      rw [le_div_iff₀ hb]
      have e : (d : ℚ) / (T : ℚ) * ((1 - 1 / 2 ^ 24) / (1 + 1 / 2 ^ 24)) * ((T : ℚ) * (1 + 1 / 2 ^ 24))
          = (d : ℚ) * (1 - 1 / 2 ^ 24) := by
        field_simp
      have h1 : (d : ℚ) / (T : ℚ) * ((1 - 1 / 2 ^ 24) / (1 + 1 / 2 ^ 24)) * round_f32 (T : ℚ)
          ≤ (d : ℚ) / (T : ℚ) * ((1 - 1 / 2 ^ 24) / (1 + 1 / 2 ^ 24)) * ((T : ℚ) * (1 + 1 / 2 ^ 24)) :=
        mul_le_mul_of_nonneg_left b2 (mul_nonneg (le_of_lt hX) (by norm_num))
      linarith
    have qhi : round_f32 (d : ℚ) / round_f32 (T : ℚ)
        ≤ (d : ℚ) / (T : ℚ) * ((1 + 1 / 2 ^ 24) / (1 - 1 / 2 ^ 24)) := by
      rw [div_le_iff₀ hb]
      have e : (d : ℚ) / (T : ℚ) * ((1 + 1 / 2 ^ 24) / (1 - 1 / 2 ^ 24)) * ((T : ℚ) * (1 - 1 / 2 ^ 24))
          = (d : ℚ) * (1 + 1 / 2 ^ 24) := by
        field_simp
      have h1 : (d : ℚ) / (T : ℚ) * ((1 + 1 / 2 ^ 24) / (1 - 1 / 2 ^ 24)) * ((T : ℚ) * (1 - 1 / 2 ^ 24))
          ≤ (d : ℚ) / (T : ℚ) * ((1 + 1 / 2 ^ 24) / (1 - 1 / 2 ^ 24)) * round_f32 (T : ℚ) :=
        mul_le_mul_of_nonneg_left b1 (mul_nonneg (le_of_lt hX) (by norm_num))
      linarith
    generalize round_f32 (100 * round_f32 (round_f32 (d : ℚ) / round_f32 (T : ℚ))) = R at r1 r2 ⊢
    generalize round_f32 (round_f32 (d : ℚ) / round_f32 (T : ℚ)) = Q at q1 q2 r1 r2 hfq hp
    generalize round_f32 (d : ℚ) / round_f32 (T : ℚ) = A at q1 q2 qlo qhi hq
    have hX' : 100 * (d : ℚ) / (T : ℚ) = 100 * ((d : ℚ) / (T : ℚ)) := by ring
    rw [hX']
    generalize (d : ℚ) / (T : ℚ) = X at hX qlo qhi ⊢
    constructor
    · have s1 : X * ((1 - 1 / 2 ^ 24) / (1 + 1 / 2 ^ 24)) * (1 - 1 / 2 ^ 24) ≤ Q := by
        have := mul_le_mul_of_nonneg_right qlo (by norm_num : (0 : ℚ) ≤ 1 - 1 / 2 ^ 24)
        linarith
      have s2 : 100 * (X * ((1 - 1 / 2 ^ 24) / (1 + 1 / 2 ^ 24)) * (1 - 1 / 2 ^ 24))
          * (1 - 1 / 2 ^ 24) ≤ R := by
        have := mul_le_mul_of_nonneg_right
          (mul_le_mul_of_nonneg_left s1 (by norm_num : (0 : ℚ) ≤ 100))
          (by norm_num : (0 : ℚ) ≤ 1 - 1 / 2 ^ 24)
        linarith
      have s3 : 100 * X * (1 - 1 / 2 ^ 21)
          ≤ 100 * (X * ((1 - 1 / 2 ^ 24) / (1 + 1 / 2 ^ 24)) * (1 - 1 / 2 ^ 24))
            * (1 - 1 / 2 ^ 24) := by
        have c : (1 - 1 / 2 ^ 21 : ℚ)
            ≤ (1 - 1 / 2 ^ 24) / (1 + 1 / 2 ^ 24) * (1 - 1 / 2 ^ 24) * (1 - 1 / 2 ^ 24) := by
          norm_num
        have := mul_le_mul_of_nonneg_left c (by linarith : (0 : ℚ) ≤ 100 * X)
        linarith
      linarith
    · have s1 : Q ≤ X * ((1 + 1 / 2 ^ 24) / (1 - 1 / 2 ^ 24)) * (1 + 1 / 2 ^ 24) := by
        have := mul_le_mul_of_nonneg_right qhi (by norm_num : (0 : ℚ) ≤ 1 + 1 / 2 ^ 24)
        linarith
      have s2 : R ≤ 100 * (X * ((1 + 1 / 2 ^ 24) / (1 - 1 / 2 ^ 24)) * (1 + 1 / 2 ^ 24))
          * (1 + 1 / 2 ^ 24) := by
        have := mul_le_mul_of_nonneg_right
          (mul_le_mul_of_nonneg_left s1 (by norm_num : (0 : ℚ) ≤ 100))
          (by norm_num : (0 : ℚ) ≤ 1 + 1 / 2 ^ 24)
        linarith
      have s3 : 100 * (X * ((1 + 1 / 2 ^ 24) / (1 - 1 / 2 ^ 24)) * (1 + 1 / 2 ^ 24))
            * (1 + 1 / 2 ^ 24) ≤ 100 * X * (1 + 1 / 2 ^ 21) := by
        have c : (1 + 1 / 2 ^ 24) / (1 - 1 / 2 ^ 24) * (1 + 1 / 2 ^ 24) * (1 + 1 / 2 ^ 24)
            ≤ (1 + 1 / 2 ^ 21 : ℚ) := by
          norm_num
        have := mul_le_mul_of_nonneg_left c (by linarith : (0 : ℚ) ≤ 100 * X)
        linarith
      linarith

/-- The system percentage of a round whose counters read `(0, 0)` after a
round that read a total `P` and an idle count `I` with `0 < I < P`: the two
deltas wrap, the busy share exceeds the total, and the result is 100. -/
theorem system_cpu_percent_lost (w : Nat) (s : main_state) (hw : 32 ≤ w)
    (hcur : s.cpu_ticks_total = 0) (hcuri : s.cpu_ticks_idle = 0)
    (hI : 0 < s.cpu_ticks_idle_prev) (hIP : s.cpu_ticks_idle_prev < s.cpu_ticks_total_prev)
    (hP : s.cpu_ticks_total_prev < 2 ^ 32) :
    system_cpu_percent w s = 100 := by
  have hle : 2 ^ 32 ≤ 2 ^ w := Nat.pow_le_pow_right (by norm_num) hw
  have hPw : s.cpu_ticks_total_prev < 2 ^ w := by omega
  have hIw : s.cpu_ticks_idle_prev < 2 ^ w := by omega
  simp only [system_cpu_percent, hcur, hcuri]
  rw [to_unsigned_size_sub w 0 _ hw hPw, to_unsigned_size_sub w 0 _ hw hIw]
  generalize s.cpu_ticks_total_prev = P at *
  generalize s.cpu_ticks_idle_prev = I at *
  norm_num at hP
  have eT : (to_unsigned 0 + 2 ^ 32 - to_unsigned P) % 2 ^ 32 = 4294967296 - P := by
    simp only [to_unsigned]; norm_num; omega
  have eI : (to_unsigned 0 + 2 ^ 32 - to_unsigned I) % 2 ^ 32 = 4294967296 - I := by
    simp only [to_unsigned]; norm_num; omega
  rw [eT, eI]
  apply cpu_usage_saturated
  · omega
  · omega
  · norm_num; omega

/-- The case the `stale` parameter is for: the line ends with the `)` of the
name, and the ticks are parsed from what an earlier line left in the buffer
behind the terminating NUL. -/
theorem read_cpustats_behind_terminator :
    read_cpustats 64 (some ["7 (x)".toList])
        (") S 4 5 6 7 8 9 10 11 12 13 14 9 16".toList ++ [LF, NUL, 'z']) = (13, 14)
    ∧ read_cpustats 64 (some ["7 (x)".toList]) [] = (0, 0) := by
  decide

theorem round_f32_two_pow_32 : round_f32 4294967296 = 4294967296 := by
  have h := round_f32_eval 4294967296 32 8388608 (by norm_num) (by norm_num) (by norm_num)
  rw [h]; norm_num

theorem round_f32_two_pow_neg_32 : round_f32 (1 / 4294967296) = 1 / 4294967296 := by
  have h := round_f32_eval (1 / 4294967296) (-32) 8388608 (by norm_num) (by norm_num)
    (by norm_num)
  rw [h]; norm_num

/-- Every value `cpu_usage` rounds to binary32 is 0 or lies between `2 ^ -32`
and `2 ^ 39`, inside the normal range of binary32: the two counts, their
quotient, and the product by 100. -/
theorem cpu_usage_operands_normal (T busy : Nat) (hT : 0 < T) (hT32 : T < 2 ^ 32)
    (hb32 : busy < 2 ^ 32) :
    (1 ≤ round_f32 (T : ℚ) ∧ round_f32 (T : ℚ) ≤ 2 ^ 32)
    ∧ (round_f32 (busy : ℚ) = 0 ∨ 1 ≤ round_f32 (busy : ℚ)) ∧ round_f32 (busy : ℚ) ≤ 2 ^ 32
    ∧ (round_f32 (busy : ℚ) / round_f32 (T : ℚ) = 0
        ∨ 1 / 2 ^ 32 ≤ round_f32 (busy : ℚ) / round_f32 (T : ℚ))
    ∧ round_f32 (busy : ℚ) / round_f32 (T : ℚ) ≤ 2 ^ 32
    ∧ (100 * round_f32 (round_f32 (busy : ℚ) / round_f32 (T : ℚ)) = 0
        ∨ 1 / 2 ^ 32 ≤ 100 * round_f32 (round_f32 (busy : ℚ) / round_f32 (T : ℚ)))
    ∧ 100 * round_f32 (round_f32 (busy : ℚ) / round_f32 (T : ℚ)) ≤ 2 ^ 39 := by
  have up : ∀ n : Nat, n < 2 ^ 32 → round_f32 (n : ℚ) ≤ 2 ^ 32 := by
    intro n hn
    have h1 : (n : ℚ) ≤ 4294967296 := by
      have : n ≤ 4294967296 := by norm_num at hn; omega
      exact_mod_cast this
    have := round_f32_mono h1
    rw [round_f32_two_pow_32] at this
    norm_num; exact this
  have hb1 : 1 ≤ round_f32 (T : ℚ) := round_f32_nat_pos hT
  have hb2 := up T hT32
  have ha2 := up busy hb32
  have ha : round_f32 (busy : ℚ) = 0 ∨ 1 ≤ round_f32 (busy : ℚ) := by
    rcases Nat.eq_zero_or_pos busy with h | h
    · left; subst h; simp [round_f32_zero]
    · right; exact round_f32_nat_pos h
  have hbpos : (0 : ℚ) < round_f32 (T : ℚ) := by linarith
  have hq2 : round_f32 (busy : ℚ) / round_f32 (T : ℚ) ≤ 2 ^ 32 := by
    rw [div_le_iff₀ hbpos]; nlinarith
  have hq : round_f32 (busy : ℚ) / round_f32 (T : ℚ) = 0
      ∨ 1 / 2 ^ 32 ≤ round_f32 (busy : ℚ) / round_f32 (T : ℚ) := by
    rcases ha with h | h
    · left; rw [h]; simp
    · right
      rw [le_div_iff₀ hbpos]
      have : 1 / 2 ^ 32 * round_f32 (T : ℚ) ≤ 1 / 2 ^ 32 * (2 : ℚ) ^ 32 :=
        mul_le_mul_of_nonneg_left hb2 (by norm_num)
      have e : (1 : ℚ) / 2 ^ 32 * 2 ^ 32 = 1 := by norm_num
      linarith
  have hfq2 : round_f32 (round_f32 (busy : ℚ) / round_f32 (T : ℚ)) ≤ 2 ^ 32 := by
    have h1 : round_f32 (busy : ℚ) / round_f32 (T : ℚ) ≤ 4294967296 := by
      norm_num at hq2; exact hq2
    have := round_f32_mono h1
    rw [round_f32_two_pow_32] at this
    norm_num; exact this
  have hfq : round_f32 (round_f32 (busy : ℚ) / round_f32 (T : ℚ)) = 0
      ∨ 1 / 2 ^ 32 ≤ round_f32 (round_f32 (busy : ℚ) / round_f32 (T : ℚ)) := by
    rcases hq with h | h
    · left; rw [h, round_f32_zero]
    · right
      have h1 : (1 : ℚ) / 4294967296 ≤ round_f32 (busy : ℚ) / round_f32 (T : ℚ) := by
        norm_num at h; norm_num; exact h
      have := round_f32_mono h1
      rw [round_f32_two_pow_neg_32] at this
      norm_num; norm_num at this; exact this
  refine ⟨⟨hb1, hb2⟩, ha, ha2, hq, hq2, ?_, ?_⟩
  · rcases hfq with h | h
    · left; rw [h]; norm_num
    · right; linarith
  · have : (100 : ℚ) * 2 ^ 32 ≤ 2 ^ 39 := by norm_num
    linarith

/-! ## Claims -/

/-- C1: per-process CPU tick delta policy of `update_process_cpustats`.  With
`a` the previous `cputicks_total` and `b` the newly read `utime + stime` (a
`size_t` sum), the call leaves `cputicks_total = b` and `cputicks_change = b - a`
when `a ≤ b`, and `cputicks_change = 0` when `a > b`. -/
theorem update_process_cpustats_delta (w : Nat) (stat : Source) (stale : List Char)
    (process : monitored_process_t) :
    (update_process_cpustats w stat stale process).cputicks_total
        = ((read_cpustats w stat stale).2 + (read_cpustats w stat stale).1) % 2 ^ w
    ∧ (update_process_cpustats w stat stale process).cputicks_change
        = if process.cputicks_total ≤ ((read_cpustats w stat stale).2 + (read_cpustats w stat stale).1) % 2 ^ w
          then ((read_cpustats w stat stale).2 + (read_cpustats w stat stale).1) % 2 ^ w - process.cputicks_total
          else 0 := by
  refine ⟨rfl, ?_⟩
  simp only [update_process_cpustats]
  have hb : ((read_cpustats w stat stale).2 + (read_cpustats w stat stale).1) % 2 ^ w < 2 ^ w :=
    Nat.mod_lt _ (Nat.two_pow_pos w)
  generalize ((read_cpustats w stat stale).2 + (read_cpustats w stat stale).1) % 2 ^ w = b at hb ⊢
  split
  · next h =>
    have e : b + 2 ^ w - process.cputicks_total = (b - process.cputicks_total) + 2 ^ w := by omega
    rw [e, Nat.add_mod_right, Nat.mod_eq_of_lt (by omega)]
  · rfl

/-- C2: `cpu_usage` stays in the closed interval from 0 to 100 for every pair
of 32-bit unsigned arguments, also when `idle_ticks > total_ticks` and the
subtraction wraps modulo `2 ^ 32`.  This holds of the value the code returns,
every `float` operation rounded to binary32 (`cpu_usage`), and of the same
computation with the quotient taken as an exact rational
(`cpu_usage_exact`). -/
theorem cpu_usage_bounds (total_ticks idle_ticks : Nat)
    (_ht : total_ticks < 2 ^ 32) (_hi : idle_ticks < 2 ^ 32) :
    (0 ≤ cpu_usage total_ticks idle_ticks ∧ cpu_usage total_ticks idle_ticks ≤ 100)
    ∧ (0 ≤ cpu_usage_exact total_ticks idle_ticks
        ∧ cpu_usage_exact total_ticks idle_ticks ≤ 100) := by
  constructor
  · simp only [cpu_usage]
    split_ifs with h0 h1 h2
    · exact ⟨le_refl _, by norm_num⟩
    · exact ⟨by norm_num, le_refl _⟩
    · exact ⟨by norm_num, le_refl _⟩
    · exact ⟨round_f32_nonneg _, not_lt.mp h2⟩
  · simp only [cpu_usage_exact]
    split_ifs with h0 h1 h2
    · exact ⟨le_refl _, by norm_num⟩
    · exact ⟨by norm_num, le_refl _⟩
    · exact ⟨by norm_num, le_refl _⟩
    · refine ⟨?_, not_lt.mp h2⟩
      positivity

/-- Witness of C2 at a pair whose subtraction wraps: `cpu_usage(5, 7)`. -/
theorem cpu_usage_bounds_witness :
    (0 ≤ cpu_usage 5 7 ∧ cpu_usage 5 7 ≤ 100)
    ∧ (0 ≤ cpu_usage_exact 5 7 ∧ cpu_usage_exact 5 7 ≤ 100) :=
  cpu_usage_bounds 5 7 (by norm_num) (by norm_num)

/-- C3: special cases of `cpu_usage`: a zero total gives 0 whatever the idle
count, and a positive total with a zero idle count gives 100. -/
theorem cpu_usage_special (total_ticks idle_ticks : Nat) (h : 0 < total_ticks) :
    cpu_usage 0 idle_ticks = 0 ∧ cpu_usage total_ticks 0 = 100 := by
  constructor
  · simp [cpu_usage]
  · have : total_ticks ≠ 0 := by omega
    simp [cpu_usage, this]

/-- Witness of C3 at `total_ticks = 3`, `idle_ticks = 9`. -/
theorem cpu_usage_special_witness :
    cpu_usage 0 9 = 0 ∧ cpu_usage 3 0 = 100 :=
  cpu_usage_special 3 9 (by norm_num)

/-- C4 (amended): on a stat source whose only lines before the aggregate line
are per-core lines, and whose aggregate line is `cpu`, a space, and `k ≥ 4`
white-space-separated decimal integers that each fit an `unsigned long`,
`system_cpu_usage` returns as `ticks_total` the `size_t` sum of the integers
of that line only and as `ticks_idle` the fourth of them; lines after it are
not read. -/
theorem system_cpu_usage_aggregate (w : Nat) (pre post : List (List Char))
    (fs : List (List Char × List Char)) (trailer : List Char)
    (hpre : ∀ l ∈ pre, is_percore_line l)
    (hf : ∀ f ∈ fs, is_blank f.1 ∧ is_decimal f.2 ∧ decval f.2 < 2 ^ w)
    (hsep : ∀ f ∈ fs.tail, f.1 ≠ [])
    (htr : is_blank trailer)
    (hk4 : 4 ≤ fs.length) (hk : fs.length ≤ 2 ^ 32) :
    (system_cpu_usage w (some (pre ++ (cpu_needle ++ render_ints fs trailer) :: post))).1
        = (fs.map (fun f => decval f.2)).sum % 2 ^ w
    ∧ (fs.map (fun f => decval f.2)).get? 3
        = some (system_cpu_usage w
            (some (pre ++ (cpu_needle ++ render_ints fs trailer) :: post))).2 := by
  have hnd : no_digit_head trailer := by
    intro c hc
    cases trailer with
    | nil => simp at hc
    | cons t ts =>
      simp only [List.head?_cons, Option.mem_def, Option.some.injEq] at hc
      subst hc
      exact isspace_not_isdigit (htr _ (List.mem_cons_self _ _))
  have hstop : ((strtoul w trailer).erange || (strtoul w trailer).noconv) = true := by
    rw [strtoul_blank w trailer htr]; simp
  rw [scan_stat_render w pre post fs trailer (fun l hl => strstr_found_percore l (hpre l hl))
    hf hsep hnd hstop hk]
  refine ⟨rfl, ?_⟩
  have h3 : 3 < (fs.map (fun f => decval f.2)).length := by simp; omega
  rw [List.get?_eq_get h3]
  simp

/-- Witness of C4: the line of the source comment, between two per-core
lines, gives the total 71010025 = 838113 + 15940 + 166151 + 69829927 +
155772 + 1484 + 2638 + 0 + 0 and the idle count 69829927. -/
theorem system_cpu_usage_aggregate_witness :
    system_cpu_usage 64 (some ["cpu0 1 2 3 4\n".toList,
        "cpu  838113 15940 166151 69829927 155772 1484 2638 0 0\n".toList,
        "cpu1 2 3 4 5\n".toList])
      = (838113 + 15940 + 166151 + 69829927 + 155772 + 1484 + 2638 + 0 + 0, 69829927) := by
  have h := system_cpu_usage_aggregate 64 ["cpu0 1 2 3 4\n".toList] ["cpu1 2 3 4 5\n".toList]
    [(" ".toList, "838113".toList), (" ".toList, "15940".toList), (" ".toList, "166151".toList),
     (" ".toList, "69829927".toList), (" ".toList, "155772".toList), (" ".toList, "1484".toList),
     (" ".toList, "2638".toList), (" ".toList, "0".toList), (" ".toList, "0".toList)]
    [LF]
    (by
      intro l hl
      simp only [List.mem_singleton] at hl
      subst hl
      exact ⟨'0', " 1 2 3 4\n".toList, rfl, by decide, by decide⟩)
    (by decide) (by decide) (by decide) (by decide) (by norm_num)
  ext
  · exact h.1
  · have h2 := h.2
    simp only [List.map, List.get?] at h2
    exact (Option.some.inj h2).symm

/-- C4 as stated fails: with a tab as the white space after `cpu` the line is
not recognised and both results are 0, not the sum 10 and the idle count 4. -/
theorem system_cpu_usage_tab_counterexample :
    isspace TAB = true
    ∧ system_cpu_usage 64 (some [['c', 'p', 'u', TAB] ++ "1 2 3 4\n".toList]) = (0, 0)
    ∧ system_cpu_usage 64 (some [['c', 'p', 'u', TAB] ++ "1 2 3 4\n".toList])
        ≠ (1 + 2 + 3 + 4, 4) := by
  decide

/-- C5 (amended): on a scheduler line made of anything up to the `)` that
closes the name (pid, and a name that may contain spaces and `)`), then
single-space-separated fields, `update_process_cpustats` sets
`cputicks_total` to the `size_t` sum of the fields at positions 14 and 15,
counted 1-indexed with the pid as field 1 and the whole name as field 2.
Here `fs` are the fields 3 to 13, `u` is field 14 and `s` is field 15. -/
theorem update_process_cpustats_fields (w : Nat) (process : monitored_process_t)
    (pre : List Char) (fs : List (List Char)) (u s rest : List Char) (more : List (List Char))
    (stale : List Char)
    (hfs : fs.length = 11)
    (hf : ∀ f ∈ fs, ∀ c ∈ f, c ≠ ' ' ∧ c ≠ ')')
    (hu : is_decimal u) (hs : is_decimal s)
    (hub : decval u < 2 ^ w) (hsb : decval s < 2 ^ w)
    (hrest : no_digit_head rest) (hrp : ∀ c ∈ rest, c ≠ ')') :
    (update_process_cpustats w
        (some ((pre ++ ')' :: render_fields (fs ++ [u, s]) rest) :: more)) stale
        process).cputicks_total
      = (decval u + decval s) % 2 ^ w := by
  have hr : ∀ c ∈ u ++ ' ' :: (s ++ rest), c ≠ ')' := by
    intro c hc
    simp only [List.mem_append, List.mem_cons] at hc
    rcases hc with h | h | h | h
    · exact (isdigit_not_sep (hu.2 c h)).2
    · subst h; decide
    · exact (isdigit_not_sep (hs.2 c h)).2
    · exact hrp c h
  have hread := read_cpustats_fields w pre fs (u ++ ' ' :: (s ++ rest)) more stale hfs hf hr
  rw [sscanf_zu_decimal w u _ hu (no_digit_head_space _) hub] at hread
  simp only [] at hread
  rw [scan_ticks_stime w u (s ++ rest) (fun c hc => (isdigit_not_sep (hu.2 c hc)).1) _ _
    (by omega), sscanf_zu_decimal w s rest hs hrest hsb] at hread
  simp only [] at hread
  have e : render_fields (fs ++ [u, s]) rest
      = render_fields fs (' ' :: (u ++ ' ' :: (s ++ rest))) := by
    rw [render_fields_append]; rfl
  simp only [update_process_cpustats, e, hread, Nat.add_comm]

/-- Witness of C5: a line whose name is `a ) b` and whose fields 4 to 17 read
4 to 17 gives 14 + 15. -/
theorem update_process_cpustats_fields_witness :
    (update_process_cpustats 64
        (some ["1 (a ) b) S 4 5 6 7 8 9 10 11 12 13 14 15 16 17\n".toList]) []
        (new_entry (fun _ => none) 1)).cputicks_total = 29 :=
  update_process_cpustats_fields 64 (new_entry (fun _ => none) 1) "1 (a ) b".toList
    ["S".toList, "4".toList, "5".toList, "6".toList, "7".toList, "8".toList, "9".toList,
     "10".toList, "11".toList, "12".toList, "13".toList]
    "14".toList "15".toList " 16 17\n".toList [] []
    (by decide) (by decide) (by decide) (by decide) (by decide) (by decide) (by decide)
    (by decide)

/-- C5 as stated fails: on a line whose fields 4 to 17 read 4 to 17, the new
`cputicks_total` is 29 = 14 + 15, not the sum 13 + 14 of fields 13 and 14. -/
theorem update_process_cpustats_field_counterexample :
    (update_process_cpustats 64
        (some ["1 (a b) S 4 5 6 7 8 9 10 11 12 13 14 15 16 17\n".toList]) []
        (new_entry (fun _ => none) 1)).cputicks_total = 14 + 15
    ∧ (update_process_cpustats 64
        (some ["1 (a b) S 4 5 6 7 8 9 10 11 12 13 14 15 16 17\n".toList]) []
        (new_entry (fun _ => none) 1)).cputicks_total ≠ 13 + 14 := by
  decide

/-- C6 (amended): `update_process_cpustats` leaves `cputicks_total = 0` when
the stat source cannot be opened or is empty, when the line has no `)`, and
when the user-mode field (field 14) does not convert; a zero total leaves
`cputicks_change = 0` whenever the previous total was positive.  When the
user-mode field converts and the kernel-mode field (field 15) does not, the
total is the user-mode value. -/
theorem update_process_cpustats_degraded (w : Nat) (stale : List Char)
    (process : monitored_process_t) :
    (update_process_cpustats w none stale process).cputicks_total = 0
    ∧ (update_process_cpustats w (some []) stale process).cputicks_total = 0
    ∧ (∀ (line : List Char) (more : List (List Char)), (∀ c ∈ line, c ≠ ')') →
        (update_process_cpustats w (some (line :: more)) stale process).cputicks_total = 0)
    ∧ (∀ (pre : List Char) (fs : List (List Char)) (r : List Char) (more : List (List Char)),
        fs.length = 11 → (∀ f ∈ fs, ∀ c ∈ f, c ≠ ' ' ∧ c ≠ ')') → (∀ c ∈ r, c ≠ ')') →
        sscanf_zu w (' ' :: r) = none →
        (update_process_cpustats w
          (some ((pre ++ ')' :: render_fields fs (' ' :: r)) :: more)) stale
          process).cputicks_total = 0)
    ∧ (∀ (pre : List Char) (fs : List (List Char)) (u r : List Char) (more : List (List Char)),
        fs.length = 11 → (∀ f ∈ fs, ∀ c ∈ f, c ≠ ' ' ∧ c ≠ ')') → (∀ c ∈ r, c ≠ ')') →
        is_decimal u → decval u < 2 ^ w →
        sscanf_zu w (' ' :: r) = none →
        (update_process_cpustats w
          (some ((pre ++ ')' :: render_fields (fs ++ [u]) (' ' :: r)) :: more)) stale
          process).cputicks_total = decval u)
    ∧ (∀ stat : Source, (update_process_cpustats w stat stale process).cputicks_total = 0 →
        0 < process.cputicks_total →
        (update_process_cpustats w stat stale process).cputicks_change = 0) := by
  refine ⟨?_, ?_, ?_, ?_, ?_, ?_⟩
  · simp [update_process_cpustats, read_cpustats]
  · simp [update_process_cpustats, read_cpustats]
  · intro line more h
    simp [update_process_cpustats, read_cpustats, strrchr_none line ')' h]
  · intro pre fs r more hfs hf hr hfail
    have hread := read_cpustats_fields w pre fs r more stale hfs hf hr
    rw [hfail] at hread
    simp [update_process_cpustats, hread]
  · intro pre fs u r more hfs hf hr hu hub hfail
    have hr2 : ∀ c ∈ u ++ ' ' :: r, c ≠ ')' := by
      intro c hc
      simp only [List.mem_append, List.mem_cons] at hc
      rcases hc with h | h | h
      · exact (isdigit_not_sep (hu.2 c h)).2
      · subst h; decide
      · exact hr c h
    have hread := read_cpustats_fields w pre fs (u ++ ' ' :: r) more stale hfs hf hr2
    rw [sscanf_zu_decimal w u _ hu (no_digit_head_space _) hub] at hread
    simp only [] at hread
    rw [scan_ticks_stime w u r (fun c hc => (isdigit_not_sep (hu.2 c hc)).1) _ _ (by omega),
      hfail] at hread
    simp only [] at hread
    have e : render_fields (fs ++ [u]) (' ' :: r) = render_fields fs (' ' :: (u ++ ' ' :: r)) := by
      rw [render_fields_append]; rfl
    simp only [update_process_cpustats, e, hread, Nat.zero_add]
    exact Nat.mod_eq_of_lt hub
  · intro stat h0 hpos
    simp only [update_process_cpustats] at h0 ⊢
    rw [h0]
    have : ¬ process.cputicks_total ≤ 0 := by omega
    simp [this]

/-- Witness of C6: with a previous total of 9, an unopenable source, a line
without `)` and an unreadable field 14 give total 0 and change 0; an
unreadable field 15 after a field 14 reading 77 gives total 77. -/
theorem update_process_cpustats_degraded_witness :
    (update_process_cpustats 64 none []
        { new_entry (fun _ => none) 1 with cputicks_total := 9 }).cputicks_total = 0
    ∧ (update_process_cpustats 64 (some ["1 (a S 4 5 6 7 8 9 10 11 12 13 14 15\n".toList]) []
        { new_entry (fun _ => none) 1 with cputicks_total := 9 }).cputicks_total = 0
    ∧ (update_process_cpustats 64 (some ["1 (a) S 4 5 6 7 8 9 10 11 12 13 x 15\n".toList]) []
        { new_entry (fun _ => none) 1 with cputicks_total := 9 }).cputicks_total = 0
    ∧ (update_process_cpustats 64 (some ["1 (a) S 4 5 6 7 8 9 10 11 12 13 77 x\n".toList]) []
        { new_entry (fun _ => none) 1 with cputicks_total := 9 }).cputicks_total = 77
    ∧ (update_process_cpustats 64 none []
        { new_entry (fun _ => none) 1 with cputicks_total := 9 }).cputicks_change = 0 := by
  have h := update_process_cpustats_degraded 64 []
    { new_entry (fun _ => none) 1 with cputicks_total := 9 }
  refine ⟨h.1, ?_, ?_, ?_, ?_⟩
  · exact h.2.2.1 _ [] (by decide)
  · exact h.2.2.2.1 "1 (a".toList
      ["S".toList, "4".toList, "5".toList, "6".toList, "7".toList, "8".toList, "9".toList,
       "10".toList, "11".toList, "12".toList, "13".toList] "x 15\n".toList []
      (by decide) (by decide) (by decide) (by decide)
  · exact h.2.2.2.2.1 "1 (a".toList
      ["S".toList, "4".toList, "5".toList, "6".toList, "7".toList, "8".toList, "9".toList,
       "10".toList, "11".toList, "12".toList, "13".toList] "77".toList "x\n".toList []
      (by decide) (by decide) (by decide) (by decide) (by decide) (by decide)
  · exact h.2.2.2.2.2 none h.1 (by decide)

/-- C6 as stated fails: when the user-mode field reads 77 and the kernel-mode
field does not convert, `cputicks_total` becomes 77, not 0. -/
theorem update_process_cpustats_stime_counterexample :
    sscanf_zu 64 " x 16 17\n".toList = none
    ∧ (update_process_cpustats 64
        (some ["1 (a) S 4 5 6 7 8 9 10 11 12 13 77 x 16 17\n".toList]) []
        (new_entry (fun _ => none) 1)).cputicks_total = 77 := by
  decide

/-- C7: on any list of smaps lines, `update_process_memstats` sets `mem_clean`
to the sum of the values of the lines beginning with `Private_Clean: ` and
`mem_dirty` to the sum of the values of the lines beginning with
`Private_Dirty: ` plus those of the lines beginning with `Swap: `, both as
`size_t` sums; no other line contributes.  The value of a line is the number
`strtoul` reads after the key, which is the numeral written there.  When the
source cannot be opened both become 0. -/
theorem update_process_memstats_sums (w : Nat) (lines : List (List Char))
    (process : monitored_process_t) :
    (update_process_memstats w (some lines) process).mem_clean
        = smaps_sum w key_private_clean lines % 2 ^ w
    ∧ (update_process_memstats w (some lines) process).mem_dirty
        = (smaps_sum w key_private_dirty lines + smaps_sum w key_swap lines) % 2 ^ w
    ∧ (update_process_memstats w none process).mem_clean = 0
    ∧ (update_process_memstats w none process).mem_dirty = 0
    ∧ (∀ key ws ds rest : List Char, is_blank ws → is_decimal ds → no_digit_head rest →
        decval ds < 2 ^ w → smaps_value w key (key ++ (ws ++ (ds ++ rest))) = decval ds) := by
  have h := memstats_foldl w lines (0, 0) (Nat.two_pow_pos w) (Nat.two_pow_pos w)
  simp only [Nat.zero_add] at h
  refine ⟨?_, ?_, rfl, rfl, ?_⟩
  · simp only [update_process_memstats, read_memstats, h]
  · simp only [update_process_memstats, read_memstats, h]
  · intro key ws ds rest hws hds hr hv
    simp [smaps_value, strtoul_decimal w ws ds rest hws hds hr hv]

/-- Witness of C7: one mapping entry with every kind of line; only the
`Private_Clean: `, `Private_Dirty: ` and `Swap: ` lines count. -/
theorem update_process_memstats_sums_witness :
    (update_process_memstats 64
        (some ["Size: 4 kB\n".toList, "Pss: 8 kB\n".toList, "Shared_Clean: 50 kB\n".toList,
          "Shared_Dirty: 60 kB\n".toList, "Private_Clean:        12 kB\n".toList,
          "Private_Dirty:  7 kB\n".toList, "Swap:  3 kB\n".toList, "SwapPss:  100 kB\n".toList,
          "Private_Clean: 30 kB\n".toList])
        (new_entry (fun _ => none) 1)).mem_clean = 42
    ∧ (update_process_memstats 64
        (some ["Size: 4 kB\n".toList, "Pss: 8 kB\n".toList, "Shared_Clean: 50 kB\n".toList,
          "Shared_Dirty: 60 kB\n".toList, "Private_Clean:        12 kB\n".toList,
          "Private_Dirty:  7 kB\n".toList, "Swap:  3 kB\n".toList, "SwapPss:  100 kB\n".toList,
          "Private_Clean: 30 kB\n".toList])
        (new_entry (fun _ => none) 1)).mem_dirty = 10
    ∧ smaps_value 64 key_swap "Swap:  3 kB\n".toList = 3 := by
  have h := update_process_memstats_sums 64
    ["Size: 4 kB\n".toList, "Pss: 8 kB\n".toList, "Shared_Clean: 50 kB\n".toList,
      "Shared_Dirty: 60 kB\n".toList, "Private_Clean:        12 kB\n".toList,
      "Private_Dirty:  7 kB\n".toList, "Swap:  3 kB\n".toList, "SwapPss:  100 kB\n".toList,
      "Private_Clean: 30 kB\n".toList]
    (new_entry (fun _ => none) 1)
  refine ⟨h.1.trans (by decide), h.2.1.trans (by decide), ?_⟩
  exact h.2.2.2.2 key_swap " ".toList "3".toList " kB\n".toList (by decide) (by decide)
    (by decide) (by decide)

/-- C8: process disappearance.  For an entry holding `mem_clean = c` and
`mem_dirty = d` (with `c + d` fitting an `ssize_t`), the first
`update_process_memstats` with an unopenable source sets
`mem_change = -(c + d)` and `mem_clean = mem_dirty = 0`; each of the `n + 1`
further calls with an unopenable source leaves `mem_change = 0` and
`mem_clean = mem_dirty = 0`. -/
theorem update_process_memstats_disappear (w : Nat) (process : monitored_process_t) (n : Nat)
    (hfit : process.mem_clean + process.mem_dirty < 2 ^ (w - 1)) :
    (update_process_memstats w none process).mem_change
        = -((process.mem_clean + process.mem_dirty : Nat) : Int)
    ∧ (update_process_memstats w none process).mem_clean = 0
    ∧ (update_process_memstats w none process).mem_dirty = 0
    ∧ (Nat.iterate (update_process_memstats w none) (n + 1)
        (update_process_memstats w none process)).mem_change = 0
    ∧ (Nat.iterate (update_process_memstats w none) (n + 1)
        (update_process_memstats w none process)).mem_clean = 0
    ∧ (Nat.iterate (update_process_memstats w none) (n + 1)
        (update_process_memstats w none process)).mem_dirty = 0 := by
  refine ⟨?_, rfl, rfl, update_process_memstats_gone_iterate w n _ rfl rfl⟩
  have hle : 2 ^ (w - 1) ≤ 2 ^ w := Nat.pow_le_pow_right (by norm_num) (Nat.sub_le w 1)
  have hk : (process.mem_clean + process.mem_dirty) % 2 ^ w
      = process.mem_clean + process.mem_dirty := Nat.mod_eq_of_lt (by omega)
  simp only [update_process_memstats, read_memstats, Nat.add_zero, Nat.zero_mod, hk]
  rw [to_ssize_small w 0 (Nat.two_pow_pos _), to_ssize_small w _ hfit]
  exact ssize_sub_zero_left w _ hfit

/-- Witness of C8: an entry read as 1200 kB clean and 3400 kB dirty whose
source then disappears: the first round reports -4600, the next three 0. -/
theorem update_process_memstats_disappear_witness :
    (update_process_memstats 64 none
        (update_process_memstats 64
          (some ["Private_Clean: 1200 kB\n".toList, "Private_Dirty: 3400 kB\n".toList])
          (new_entry (fun _ => none) 1))).mem_change = -4600
    ∧ (Nat.iterate (update_process_memstats 64 none) 3
        (update_process_memstats 64 none
          (update_process_memstats 64
            (some ["Private_Clean: 1200 kB\n".toList, "Private_Dirty: 3400 kB\n".toList])
            (new_entry (fun _ => none) 1)))).mem_change = 0 := by
  have h := update_process_memstats_disappear 64
    (update_process_memstats 64
      (some ["Private_Clean: 1200 kB\n".toList, "Private_Dirty: 3400 kB\n".toList])
      (new_entry (fun _ => none) 1)) 2 (by decide)
  exact ⟨h.1.trans (by decide), h.2.2.2.1⟩

/-- C9: registry append.  From the empty registry, `monitor_pid` called with
any sequence of `N ≤ 2 ^ 31` non-zero pids succeeds and leaves `count = N`,
the entries holding the pids in registration order with zeroed memory and
tick fields, `count ≤ capacity`, and a capacity that is 0 before the first
use, 4 after it, and doubled whenever the count reached it.  The same holds
after every prefix of the sequence, and the entries after the first `k`
registrations are the first `k` entries of the final registry. -/
theorem monitor_pids_registry (pid2name : Nat → Option (List Char)) (pids : List Nat)
    (hnz : ∀ p ∈ pids, p ≠ 0) (hN : pids.length ≤ 2 ^ 31) :
    ∃ r, monitor_pids pid2name pids registry_empty = some r
      ∧ r.mprocs_cnt = pids.length
      ∧ r.mprocs.map (fun e => e.pid) = pids
      ∧ (∀ e ∈ r.mprocs, e.mem_clean = 0 ∧ e.mem_dirty = 0 ∧ e.mem_change = 0
          ∧ e.cputicks_total = 0 ∧ e.cputicks_change = 0)
      ∧ r.mprocs_cnt ≤ r.mprocs_cap
      ∧ cap_policy r.mprocs_cnt r.mprocs_cap
      ∧ (∀ k, k ≤ pids.length →
          ∃ rk, monitor_pids pid2name (pids.take k) registry_empty = some rk
            ∧ rk.mprocs = r.mprocs.take k
            ∧ rk.mprocs_cnt = k
            ∧ rk.mprocs_cnt ≤ rk.mprocs_cap
            ∧ cap_policy rk.mprocs_cnt rk.mprocs_cap) := by
  obtain ⟨r, hr, hm, hc, hlen, hle, hpol⟩ :=
    monitor_pids_run pid2name pids registry_empty registry_inv_empty
      (by simpa [registry_empty] using hN) hnz
  simp only [registry_empty, List.nil_append, Nat.zero_add] at hm hc
  refine ⟨r, hr, hc, ?_, ?_, hle, hpol, ?_⟩
  · rw [hm, List.map_map]
    have : ((fun e : monitored_process_t => e.pid) ∘ new_entry pid2name) = id := by
      funext p; rfl
    rw [this, List.map_id]
  · intro e he
    rw [hm, List.mem_map] at he
    obtain ⟨p, _, rfl⟩ := he
    exact ⟨rfl, rfl, rfl, rfl, rfl⟩
  · intro k hk
    obtain ⟨rk, hrk, hmk, hck, _, hlek, hpolk⟩ :=
      monitor_pids_run pid2name (pids.take k) registry_empty registry_inv_empty
        (by simp [registry_empty]; omega) (fun p hp => hnz p (List.mem_of_mem_take hp))
    simp only [registry_empty, List.nil_append, Nat.zero_add, List.length_take] at hmk hck
    refine ⟨rk, hrk, ?_, ?_, hlek, hpolk⟩
    · rw [hmk, hm, List.map_take]
    · rw [hck]; omega

/-- Witness of C9 across the boundary from 4 to 5 entries: five pids give
count 5 in registration order within capacity; the capacity is 4 after four
registrations and 8 after the fifth. -/
theorem monitor_pids_registry_witness :
    (∃ r, monitor_pids (fun _ => none) [11, 22, 33, 44, 55] registry_empty = some r
      ∧ r.mprocs_cnt = 5
      ∧ r.mprocs.map (fun e => e.pid) = [11, 22, 33, 44, 55]
      ∧ r.mprocs_cnt ≤ r.mprocs_cap)
    ∧ (monitor_pids (fun _ => none) [11, 22, 33, 44] registry_empty).map
        (fun r => (r.mprocs_cnt, r.mprocs_cap)) = some (4, 4)
    ∧ (monitor_pids (fun _ => none) [11, 22, 33, 44, 55] registry_empty).map
        (fun r => (r.mprocs_cnt, r.mprocs_cap)) = some (5, 8) := by
  obtain ⟨r, hr, hc, hp, _, hle, _, _⟩ :=
    monitor_pids_registry (fun _ => none) [11, 22, 33, 44, 55] (by decide) (by norm_num)
  exact ⟨⟨r, hr, hc, hp, hle⟩, by decide, by decide⟩

/-- C10 (amended): `system_cpu_usage` returns `(0, 0)` when the source cannot
be opened and when no line contains `"cpu "`.  When the first line containing
it starts with it and continues with `k ≥ 0` well-formed integers followed by
something that is not an integer, the result is the `size_t` sum of those
`k` integers and, as idle count, the fourth of them (0 when `k < 4`): it is
`(0, 0)` when no integer leads the line, and the partial sums otherwise. -/
theorem system_cpu_usage_degraded (w : Nat) :
    system_cpu_usage w none = (0, 0)
    ∧ (∀ lines : List (List Char), (∀ l ∈ lines, ¬ has_infix l cpu_needle) →
        system_cpu_usage w (some lines) = (0, 0))
    ∧ (∀ (pre post : List (List Char)) (fs : List (List Char × List Char))
        (trailer : List Char),
        (∀ l ∈ pre, ¬ has_infix l cpu_needle) →
        (∀ f ∈ fs, is_blank f.1 ∧ is_decimal f.2 ∧ decval f.2 < 2 ^ w) →
        (∀ f ∈ fs.tail, f.1 ≠ []) →
        fs.length ≤ 2 ^ 32 →
        no_digit_head trailer →
        ((strtoul w trailer).erange || (strtoul w trailer).noconv) = true →
        system_cpu_usage w (some (pre ++ (cpu_needle ++ render_ints fs trailer) :: post))
          = ((fs.map (fun f => decval f.2)).sum % 2 ^ w,
             ((fs.map (fun f => decval f.2)).get? 3).getD 0)) := by
  have hno : ∀ l : List Char, ¬ has_infix l cpu_needle → strstr_found l cpu_needle = false := by
    intro l hl
    cases h : strstr_found l cpu_needle with
    | false => rfl
    | true => exact absurd ((strstr_found_iff _ _).mp h) hl
  refine ⟨rfl, ?_, ?_⟩
  · intro lines hl
    have h := scan_stat_skip w lines [] (fun l hm => hno l (hl l hm))
    simp only [List.append_nil] at h
    simp [system_cpu_usage, h, scan_stat]
  · intro pre post fs trailer hpre hf hsep hk htr hstop
    exact scan_stat_render w pre post fs trailer (fun l hm => hno l (hpre l hm)) hf hsep htr
      hstop hk

/-- Witness of C10: a source without any `"cpu "` gives `(0, 0)`, the line
`cpu  x 1 2 3` gives `(0, 0)`, and `cpu  1 2 x 4` gives the partial sum
`(3, 0)`. -/
theorem system_cpu_usage_degraded_witness :
    system_cpu_usage 64 (some ["intr 5 6\n".toList, "cpu0 1 2 3 4\n".toList]) = (0, 0)
    ∧ system_cpu_usage 64 (some ["cpu  x 1 2 3\n".toList]) = (0, 0)
    ∧ system_cpu_usage 64 (some ["cpu  1 2 x 4\n".toList]) = (3, 0) := by
  have h := system_cpu_usage_degraded 64
  have hno : ∀ l : List Char, strstr_found l cpu_needle = false → ¬ has_infix l cpu_needle :=
    fun l hl hi => by rw [(strstr_found_iff _ _).mpr hi] at hl; cases hl
  refine ⟨h.2.1 _ ?_, ?_, ?_⟩
  · intro l hl
    simp only [List.mem_cons, List.mem_singleton, List.not_mem_nil, or_false] at hl
    rcases hl with rfl | rfl <;> exact hno _ (by decide)
  · exact h.2.2 [] [] [] " x 1 2 3\n".toList (by simp) (by simp) (by simp) (by norm_num)
      (by decide) (by decide)
  · exact h.2.2 [] [] [(" ".toList, "1".toList), (" ".toList, "2".toList)] " x 4\n".toList
      (by simp) (by decide) (by decide) (by norm_num) (by decide) (by decide)

/-- C10 as stated fails: an aggregate line whose first two fields are integers
and whose third is not, and one with only two integer fields, both give the
partial sum 3 as total, not `(0, 0)`. -/
theorem system_cpu_usage_partial_counterexample :
    system_cpu_usage 64 (some ["cpu  1 2 x 4\n".toList]) = (3, 0)
    ∧ system_cpu_usage 64 (some ["cpu  1 2\n".toList]) = (3, 0)
    ∧ ((3 : Nat), (0 : Nat)) ≠ (0, 0) := by
  decide

/-- C11 (amended): the per-process CPU percentage of a round.  With `T` the
system-wide total tick delta and `d` the entry's `cputicks_change`, both as
32-bit unsigned, the loop prints `cpu_usage(T, T - d)` with the subtraction
modulo `2 ^ 32`.  That is 0 when `T = 0` and 100 when `T > 0` and `d ≥ T`.
When `T > 0` and `d < T` it is `100 * ((float)d / (float)T)` evaluated in
binary32, the two conversions, the quotient and the product each rounded to
nearest; this value lies within a factor `1 ± 2 ^ -21` of `100 * d / T`. -/
theorem process_cpu_percent_rounded (w : Nat) (s : main_state) (p : monitored_process_t)
    (hw : 32 ≤ w) (hc : p.cputicks_change < 2 ^ w) :
    process_cpu_percent w s p
        = cpu_usage (tick_delta w s)
            ((tick_delta w s + 2 ^ 32 - to_unsigned p.cputicks_change) % 2 ^ 32)
    ∧ (tick_delta w s = 0 → process_cpu_percent w s p = 0)
    ∧ (0 < tick_delta w s → tick_delta w s ≤ to_unsigned p.cputicks_change →
        process_cpu_percent w s p = 100)
    ∧ (0 < tick_delta w s → to_unsigned p.cputicks_change < tick_delta w s →
        process_cpu_percent w s p
            = round_f32 (100 * round_f32
                (round_f32 (to_unsigned p.cputicks_change : ℚ) / round_f32 (tick_delta w s : ℚ)))
        ∧ 100 * (to_unsigned p.cputicks_change : ℚ) / (tick_delta w s : ℚ) * (1 - 1 / 2 ^ 21)
            ≤ process_cpu_percent w s p
        ∧ process_cpu_percent w s p
            ≤ 100 * (to_unsigned p.cputicks_change : ℚ) / (tick_delta w s : ℚ)
                * (1 + 1 / 2 ^ 21)) := by
  have hM : 0 < 2 ^ 32 := Nat.two_pow_pos 32
  have hT : tick_delta w s < 2 ^ 32 := Nat.mod_lt _ hM
  have hd : to_unsigned p.cputicks_change < 2 ^ 32 := Nat.mod_lt _ hM
  have e : process_cpu_percent w s p
      = cpu_usage (tick_delta w s)
          ((tick_delta w s + 2 ^ 32 - to_unsigned p.cputicks_change) % 2 ^ 32) := by
    simp only [process_cpu_percent, tick_delta]
    rw [to_unsigned_size_sub w _ _ hw hc]
  rw [e]
  generalize tick_delta w s = T at hT ⊢
  generalize to_unsigned p.cputicks_change = d at hd ⊢
  norm_num at hT hd
  refine ⟨rfl, ?_, ?_, ?_⟩
  · intro h0; simp [cpu_usage, h0]
  · intro hpos hle
    rcases Nat.eq_or_lt_of_le hle with heq | hlt
    · subst heq
      have hT0 : T ≠ 0 := by omega
      simp [cpu_usage, hT0]
    · apply cpu_usage_saturated
      · omega
      · norm_num; omega
      · norm_num; omega
  · intro hpos hlt
    have hidle : (T + 2 ^ 32 - d) % 2 ^ 32 = T - d := by norm_num; omega
    have hbusy : (T + 2 ^ 32 - (T - d)) % 2 ^ 32 = d := by norm_num; omega
    have hv := cpu_usage_value T (T - d) (by omega) (by omega) (by rw [hbusy]; omega)
    rw [hbusy] at hv
    rw [hidle, hv]
    exact ⟨rfl, percent_rounding_error d T hpos⟩

/-- Witness of C11: with 400 system ticks in the round, a process that used
100 of them shows the binary32 value of `100 * (100 / 400)`, within the
rounding bound of 25; one whose change is 500 shows 100; and in a round
without system ticks the percentage is 0. -/
theorem process_cpu_percent_rounded_witness :
    (process_cpu_percent 64 (ticks_state 1000 900 600 550) (entry_with_change 100)
        = round_f32 (100 * round_f32 (round_f32 ((100 : Nat) : ℚ) / round_f32 ((400 : Nat) : ℚ)))
      ∧ 100 * ((100 : Nat) : ℚ) / ((400 : Nat) : ℚ) * (1 - 1 / 2 ^ 21)
          ≤ process_cpu_percent 64 (ticks_state 1000 900 600 550) (entry_with_change 100)
      ∧ process_cpu_percent 64 (ticks_state 1000 900 600 550) (entry_with_change 100)
          ≤ 100 * ((100 : Nat) : ℚ) / ((400 : Nat) : ℚ) * (1 + 1 / 2 ^ 21))
    ∧ process_cpu_percent 64 (ticks_state 1000 900 600 550) (entry_with_change 500) = 100
    ∧ process_cpu_percent 64 (ticks_state 1000 900 1000 900) (entry_with_change 7) = 0 :=
  ⟨(process_cpu_percent_rounded 64 (ticks_state 1000 900 600 550) (entry_with_change 100)
      (by norm_num) (by decide)).2.2.2 (by decide) (by decide),
   (process_cpu_percent_rounded 64 (ticks_state 1000 900 600 550) (entry_with_change 500)
      (by norm_num) (by decide)).2.2.1 (by decide) (by decide),
   (process_cpu_percent_rounded 64 (ticks_state 1000 900 1000 900) (entry_with_change 7)
      (by norm_num) (by decide)).2.1 (by decide)⟩

/-- C11 as stated fails: the percentage is a `float`.  With `T = 3` and
`d = 1` the loop prints 4369067 / 131072 (33.33333587...), not `100 / 3`;
with `T = 2 ^ 32 - 1` and `d = 2 ^ 32 - 2` both counts convert to `2 ^ 32`
and it prints 100, not `100 * d / T`, which is below 100. -/
theorem process_cpu_percent_counterexample :
    tick_delta 64 (ticks_state 3 0 0 0) = 3
    ∧ to_unsigned (entry_with_change 1).cputicks_change = 1
    ∧ process_cpu_percent 64 (ticks_state 3 0 0 0) (entry_with_change 1) = 4369067 / 131072
    ∧ process_cpu_percent 64 (ticks_state 3 0 0 0) (entry_with_change 1) ≠ 100 * (1 : ℚ) / 3
    ∧ tick_delta 64 (ticks_state 4294967295 0 0 0) = 4294967295
    ∧ to_unsigned (entry_with_change 4294967294).cputicks_change = 4294967294
    ∧ process_cpu_percent 64 (ticks_state 4294967295 0 0 0) (entry_with_change 4294967294) = 100
    ∧ process_cpu_percent 64 (ticks_state 4294967295 0 0 0) (entry_with_change 4294967294)
        ≠ 100 * (4294967294 : ℚ) / 4294967295 := by
  have f1 : round_f32 1 = 1 := round_f32_one
  have f3 : round_f32 3 = 3 := by
    have h := round_f32_eval 3 1 12582912 (by norm_num) (by norm_num) (by norm_num)
    rw [h]; norm_num
  have fq : round_f32 (1 / 3) = 11184811 / 33554432 := by
    have h := round_f32_eval (1 / 3) (-2) 11184811 (by norm_num) (by norm_num)
      (by rw [abs_lt]; constructor <;> norm_num)
    rw [h]; norm_num
  have fr : round_f32 (279620275 / 8388608) = 4369067 / 131072 := by
    have h := round_f32_eval (279620275 / 8388608) 5 8738134 (by norm_num) (by norm_num)
      (by rw [abs_lt]; constructor <;> norm_num)
    rw [h]; norm_num
  have e1 : process_cpu_percent 64 (ticks_state 3 0 0 0) (entry_with_change 1)
      = cpu_usage 3 2 := rfl
  have v1 : cpu_usage 3 2 = 4369067 / 131072 := by
    rw [cpu_usage_value 3 2 (by norm_num) (by norm_num) (by norm_num)]
    norm_num [f1, f3, fq, fr]
  have g1 : round_f32 4294967294 = 4294967296 := by
    have h := round_f32_eval 4294967294 31 16777216 (by norm_num) (by norm_num)
      (by rw [abs_lt]; constructor <;> norm_num)
    rw [h]; norm_num
  have g2 : round_f32 4294967295 = 4294967296 := by
    have h := round_f32_eval 4294967295 31 16777216 (by norm_num) (by norm_num)
      (by rw [abs_lt]; constructor <;> norm_num)
    rw [h]; norm_num
  have e2 : process_cpu_percent 64 (ticks_state 4294967295 0 0 0) (entry_with_change 4294967294)
      = cpu_usage 4294967295 1 := rfl
  have v2 : cpu_usage 4294967295 1 = 100 := by
    rw [cpu_usage_value 4294967295 1 (by norm_num) (by norm_num) (by norm_num)]
    norm_num [g1, g2, f1, round_f32_hundred]
  refine ⟨by decide, by decide, ?_, ?_, by decide, by decide, ?_, ?_⟩
  · rw [e1, v1]
  · rw [e1, v1]; norm_num
  · rw [e2, v2]
  · rw [e2, v2]; norm_num

/-- C12, the code at the failing input.  Without a `/` in argument 0 the
bytes `foo\0-x\0` give `foo -x`, whatever follows in the buffer.  With the
path, `/usr/bin/foo\0-x\0` never gives `foo -x`: `offset` is two less than
the number of bytes to drop, so `memmove` copies one byte from behind the
terminating NUL (a read past the buffer when nothing is there) and the loop
turns the last two NULs into spaces.  With `e\0` behind the terminator, which
is what remains of `/proc/1234/cmdline` in the buffer, the result is
`foo -x  efoo`. -/
theorem cmdline_path_offset :
    (∀ slack : List Char,
        cmdline (some ("foo".toList ++ [NUL] ++ "-x".toList ++ [NUL])) slack
          = cmdline_result.name "foo -x".toList)
    ∧ (∀ slack : List Char,
        cmdline (some ("/usr/bin/foo".toList ++ [NUL] ++ "-x".toList ++ [NUL])) slack
          ≠ cmdline_result.name "foo -x".toList)
    ∧ cmdline (some ("/usr/bin/foo".toList ++ [NUL] ++ "-x".toList ++ [NUL])) ['e', NUL]
        = cmdline_result.name "foo -x  efoo".toList
    ∧ cmdline (some ("/usr/bin/foo".toList ++ [NUL] ++ "-x".toList ++ [NUL])) []
        = cmdline_result.overrun := by
  refine ⟨fun slack => ?_, fun slack => ?_, by decide, by decide⟩
  · exact cmdline_no_slash "foo".toList ["-x".toList] slack (by decide) (by decide)
  · exact cmdline_slash_ne "/usr/bin".toList "foo".toList ["-x".toList] slack (by decide)
      (by decide)

/-- C13, the code at the failing input.  The baseline reads the aggregate line
of the source comment (total 71010025, idle 69829927); in the next round
`/proc/stat` cannot be opened and `system_cpu_usage` yields `(0, 0)`.  The
loop then hands `cpu_usage` the wrapped differences `0 - 71010025` and
`0 - 69829927`, and the system percentage it prints is 100, not 0. -/
theorem system_cpu_percent_regress :
    main_next 64 no_files (main_baseline 64 stat_only_files [])
        = ticks_state 0 0 71010025 69829927
    ∧ tick_delta 64 (main_next 64 no_files (main_baseline 64 stat_only_files []))
        = 2 ^ 32 - 71010025
    ∧ system_cpu_percent 64 (main_next 64 no_files (main_baseline 64 stat_only_files [])) = 100
    ∧ (main_emit 64 (main_next 64 no_files (main_baseline 64 stat_only_files []))).1 ≠ 0 := by
  have hs : main_next 64 no_files (main_baseline 64 stat_only_files [])
      = ticks_state 0 0 71010025 69829927 := by decide
  have h100 : system_cpu_percent 64 (ticks_state 0 0 71010025 69829927) = 100 :=
    system_cpu_percent_lost 64 _ (by norm_num) rfl rfl (by decide) (by decide) (by decide)
  refine ⟨hs, by rw [hs]; decide, by rw [hs]; exact h100, ?_⟩
  simp only [main_emit, hs, h100]
  norm_num

end MemCpuMonitor
